import Mathlib

/-!
Verification of the photondb Bw-tree engine core (`src/engine/src/tree`).

The Rust sources are shallowly embedded: byte buffers become `List Nat`
(each element a byte value), machine integers become `Nat` with explicit
`% 2 ^ w` where wrap-around matters, raw pointers become `Nat` addresses
into an explicit heap, and the mapping table becomes an association list
from page id to address.  Fallible operations return `Except` or `Option`.
-/

set_option maxRecDepth 100000

namespace Photon

/-! ## Keys and values

Modelled from the spec: the module `tree/page/data.rs` (types `Key`, `Value`,
`Index` and their `Ord`/codec impls) is not under `src/`.  The spec states:
"Key. (user-bytes, LSN). Comparison: user-bytes lexicographic, ties broken by
LSN DESCENDING" and "Value. Tagged variant: Put(bytes) or Tombstone". -/

structure Key where
  raw : List Nat
  lsn : Nat
deriving DecidableEq, Repr

/-- Modelled from the spec: `Value` of the missing `data.rs`:
`Put(bytes)` or a tombstone (`Delete`). -/
inductive Value where
  | put (bytes : List Nat)
  | delete
deriving DecidableEq, Repr

/-- Modelled from the spec: `impl From<Value> for Option<&[u8]>` of the missing
`data.rs`: a `Put` carries its bytes, a tombstone carries nothing. -/
def Value.toBytes : Value → Option (List Nat)
  | .put b => some b
  | .delete => none

/-- The key order as a point in a lexicographic product: raw bytes ascending,
then LSN descending (order dual). -/
def Key.toLexPair (k : Key) : Lex (List Nat × (Nat)ᵒᵈ) :=
  toLex (k.raw, OrderDual.toDual k.lsn)

theorem Key.toLexPair_injective : Function.Injective Key.toLexPair := by
  intro a b h
  cases a; cases b
  simpa [Key.toLexPair, toLex, OrderDual.toDual, Key.mk.injEq] using h

/-- Modelled from the spec: the `Ord` instance for `Key` in the missing
`data.rs`: user bytes lexicographic ascending, LSN descending. -/
instance : LinearOrder Key := LinearOrder.lift' Key.toLexPair Key.toLexPair_injective

theorem Key.lt_def {a b : Key} :
    a < b ↔ a.raw < b.raw ∨ (a.raw = b.raw ∧ b.lsn < a.lsn) := by
  show a.toLexPair < b.toLexPair ↔ _
  cases a with
  | mk ar al =>
    cases b with
    | mk br bl =>
      constructor
      · intro h
        rcases (Prod.lex_iff.mp h) with h1 | ⟨h1, h2⟩
        · exact Or.inl h1
        · exact Or.inr ⟨h1, h2⟩
      · intro h
        rcases h with h1 | ⟨h1, h2⟩
        · exact Prod.lex_iff.mpr (Or.inl h1)
        · exact Prod.lex_iff.mpr (Or.inr ⟨h1, h2⟩)

/-! ## Binary search (`DataPageRef::rank`)

`rank` in `data_page.rs` runs a `while left < right` loop over an indexed key
access, comparing with the three-way `cmp` and returning `mid` early on
`Equal`.  We embed the loop generically over the key-at-index function `f`. -/

def rankLoop {K : Type} [LinearOrder K] (f : Nat → K) (target : K)
    (left right : Nat) : Nat :=
  if _h : left < right then
    let mid := (left + right) / 2
    match compare (f mid) target with
    | .lt => rankLoop f target (mid + 1) right
    | .gt => rankLoop f target left mid
    | .eq => mid
  else
    left
termination_by right - left
decreasing_by
  · have hmid : (left + right) / 2 < right := Nat.div_lt_of_lt_mul (by omega)
    omega
  · have hmid : left ≤ (left + right) / 2 := Nat.le_div_iff_mul_le (by omega) |>.mpr (by omega)
    omega

theorem rankLoop_spec {K : Type} [LinearOrder K] (f : Nat → K) (t : K) (n : Nat)
    (hmono : ∀ i j, i < j → j < n → f i < f j) :
    ∀ fuel left right, right - left ≤ fuel → left ≤ right → right ≤ n →
      (∀ i, i < left → f i < t) → (∀ j, right ≤ j → j < n → t ≤ f j) →
      rankLoop f t left right ≤ n ∧
      (∀ i, i < rankLoop f t left right → f i < t) ∧
      (rankLoop f t left right < n → t ≤ f (rankLoop f t left right)) := by
  intro fuel
  induction fuel with
  | zero =>
    intro left right hf hlr hrn hlo hhi
    have hle : left = right := by omega
    rw [rankLoop]
    simp only [hle, lt_irrefl, dite_false]
    exact ⟨by omega, fun i hi => hlo i (by omega), fun h => hhi right (by omega) h⟩
  | succ fuel ih =>
    intro left right hf hlr hrn hlo hhi
    rw [rankLoop]
    by_cases h : left < right
    · simp only [h, dite_true]
      have hmid1 : left ≤ (left + right) / 2 :=
        Nat.le_div_iff_mul_le (by omega) |>.mpr (by omega)
      have hmid2 : (left + right) / 2 < right := Nat.div_lt_of_lt_mul (by omega)
      set mid := (left + right) / 2 with hmid
      rcases hc : compare (f mid) t with hlt | heq | hgt
      · -- f mid < t : recurse on (mid+1, right)
        simp only [hc]
        have hflt : f mid < t := compare_lt_iff_lt.mp hc
        refine ih (mid + 1) right (by omega) (by omega) hrn ?_ hhi
        intro i hi
        by_cases hil : i < left
        · exact hlo i hil
        · by_cases him : i = mid
          · simpa [him] using hflt
          · exact lt_trans (hmono i mid (by omega) (by omega)) hflt
      · -- f mid = t : return mid
        simp only [hc]
        have hfeq : f mid = t := compare_eq_iff_eq.mp hc
        refine ⟨by omega, ?_, fun _ => le_of_eq hfeq.symm⟩
        intro i hi
        by_cases hil : i < left
        · exact hlo i hil
        · have : f i < f mid := hmono i mid (by omega) (by omega)
          simpa [hfeq] using this
      · -- f mid > t : recurse on (left, mid)
        simp only [hc]
        have hfgt : t < f mid := compare_gt_iff_gt.mp hc
        refine ih left mid (by omega) (by omega) (by omega) hlo ?_
        intro j hj1 hj2
        by_cases hjm : j = mid
        · exact le_of_lt (by simpa [hjm] using hfgt)
        · exact le_of_lt (lt_trans hfgt (hmono mid j (by omega) hj2))
    · simp only [h, dite_false]
      have hle : left = right := by omega
      exact ⟨by omega, fun i hi => hlo i (by omega),
        fun hlt2 => hhi left (by omega) hlt2⟩

/-! ## Byte-level data page layout (`data_page.rs`)

A data page's content is an offset array (`u32` little-endian per entry)
followed by the packed encoded entries.  `DataPageBuilder::build_from_iter`
makes two passes: the first computes `offsets_size = 4 * n` and the payload
size, the second writes each entry's offset (the writer position, which starts
at `offsets_size` after the skip) and then its encoded bytes. -/

def u32le (x : Nat) : List Nat :=
  [x % 256, x / 256 % 256, x / 256 ^ 2 % 256, x / 256 ^ 3 % 256]

def readU32le (bytes : List Nat) : Nat :=
  bytes.getD 0 0 + 256 * (bytes.getD 1 0 + 256 * (bytes.getD 2 0 + 256 * bytes.getD 3 0))

theorem readU32le_u32le (x : Nat) (r : List Nat) :
    readU32le (u32le x ++ r) = x % 2 ^ 32 := by
  simp only [u32le, readU32le, List.cons_append, List.nil_append, List.getD_cons_zero,
    List.getD_cons_succ]
  omega

theorem u32le_length (x : Nat) : (u32le x).length = 4 := rfl

/-- An encoder/decoder pair in the style of the `Encodable`/`Decodable` traits
(`encode_to` writes bytes to a buffer, `decode_from` reads a value from a
buffer and leaves the rest). -/
structure Codec (α : Type) where
  enc : α → List Nat
  dec : List Nat → α × List Nat

/-- The round-trip contract of the codec: decoding encoded bytes followed by
anything yields the value back and the remaining bytes. -/
def Codec.Lawful {α : Type} (c : Codec α) : Prop :=
  ∀ a rest, c.dec (c.enc a ++ rest) = (a, rest)

variable {K V : Type}

def encEntry (ck : Codec K) (cv : Codec V) (e : K × V) : List Nat :=
  ck.enc e.1 ++ cv.enc e.2

/-- The byte offset stamped for entry `i`: the writer position after the
offset-array skip (`4 * n`) plus the sizes of the entries already written. -/
def entryOffset (ck : Codec K) (cv : Codec V) (l : List (K × V)) (i : Nat) : Nat :=
  4 * l.length + ((l.take i).map (fun e => (encEntry ck cv e).length)).sum

/-- The content bytes produced by `DataPageBuilder::build_from_iter`:
the offset array followed by the packed entries. -/
def buildContent (ck : Codec K) (cv : Codec V) (l : List (K × V)) : List Nat :=
  ((List.range l.length).map (fun i => u32le (entryOffset ck cv l i))).flatten
    ++ (l.map (encEntry ck cv)).flatten

/-- An in-memory data page: the header fields other than the content are not
needed for the content-layout claims. -/
structure DataPage where
  content : List Nat

def DataPage.build (ck : Codec K) (cv : Codec V) (l : List (K × V)) : DataPage :=
  ⟨buildContent ck cv l⟩

/-- `DataPageRef::new`: the entry count is recovered from the first `u32` of
the content (`offsets[0] / size_of::<u32>()`), or 0 for empty content. -/
def DataPage.numEntries (p : DataPage) : Nat :=
  if p.content.length = 0 then 0 else readU32le p.content / 4

/-- `self.offsets[i]` : the little-endian `u32` at byte `4 * i` of the content. -/
def DataPage.offsetAt (p : DataPage) (i : Nat) : Nat :=
  readU32le (p.content.drop (4 * i))

/-- `DataPageRef::get`: bounds-check against the offset array, then decode the
key and the value at the entry's offset. -/
def DataPage.entryAt (ck : Codec K) (cv : Codec V) (p : DataPage) (i : Nat) :
    Option (K × V) :=
  if i < p.numEntries then
    let r1 := ck.dec (p.content.drop (p.offsetAt i))
    some (r1.1, (cv.dec r1.2).1)
  else
    none

/-- The key decoded at `offsets[i]`, as probed by `DataPageRef::rank`. -/
def DataPage.keyAtIdx (ck : Codec K) (p : DataPage) (i : Nat) : K :=
  (ck.dec (p.content.drop (p.offsetAt i))).1

/-- `DataPageRef::rank`: binary search over the offset array. -/
def DataPage.rank [LinearOrder K] (ck : Codec K) (p : DataPage) (target : K) : Nat :=
  rankLoop (p.keyAtIdx ck) target 0 p.numEntries

/-- `DataPageRef::seek`: `self.get(self.rank(target))`. -/
def DataPage.seek [LinearOrder K] (ck : Codec K) (cv : Codec V) (p : DataPage)
    (target : K) : Option (K × V) :=
  p.entryAt ck cv (p.rank ck target)

/-- The backward walk of `DataPageRef::seek_back`:
`for i in (0..=index).rev() { if let Some((k, v)) = self.get(i) { if &key <= target ... } }`,
generic over the indexed entry access `g`. -/
def seekBackAux [LinearOrder K] (g : Nat → Option (K × V)) (target : K) :
    Nat → Option (K × V)
  | 0 =>
    match g 0 with
    | some e => if e.1 ≤ target then some e else none
    | none => none
  | i + 1 =>
    match g (i + 1) with
    | some e => if e.1 ≤ target then some e else seekBackAux g target i
    | none => seekBackAux g target i

/-- `DataPageRef::seek_back`. -/
def DataPage.seekBack [LinearOrder K] (ck : Codec K) (cv : Codec V) (p : DataPage)
    (target : K) : Option (K × V) :=
  seekBackAux (p.entryAt ck cv) target (p.rank ck target)

/-! ### Layout bridge lemmas -/

theorem join_map_u32le_length (offs : List Nat) :
    ((offs.map u32le).flatten).length = 4 * offs.length := by
  induction offs with
  | nil => simp
  | cons a t ih => simp [ih, u32le_length]; omega

theorem join_map_u32le_drop (offs : List Nat) :
    ∀ j, j < offs.length →
      ((offs.map u32le).flatten).drop (4 * j) =
        u32le (offs.getD j 0) ++ ((offs.drop (j + 1)).map u32le).flatten := by
  induction offs with
  | nil => intro j hj; simp at hj
  | cons a t ih =>
    intro j hj
    cases j with
    | zero => simp
    | succ j =>
      have h4 : 4 * (j + 1) = (u32le a).length + 4 * j := by
        simp [u32le_length]; omega
      simp only [List.map_cons, List.flatten_cons, h4, List.drop_append]
      exact ih j (by simpa using hj)

theorem getD_map_range {α : Type} (f : Nat → α) (d : α) {n i : Nat} (h : i < n) :
    (((List.range n).map f).getD i d) = f i := by
  rw [List.getD_eq_getElem _ _ (by simpa using h)]
  simp

theorem flatten_map_drop_presum (f : K × V → List Nat) (l : List (K × V)) :
    ∀ i (hi : i < l.length),
      ((l.map f).flatten).drop (((l.take i).map (fun e => (f e).length)).sum) =
        f (l.get ⟨i, hi⟩) ++ ((l.drop (i + 1)).map f).flatten := by
  induction l with
  | nil => intro i hi; simp at hi
  | cons a t ih =>
    intro i hi
    cases i with
    | zero => simp
    | succ i =>
      simp only [List.take_succ_cons, List.map_cons, List.sum_cons, List.flatten_cons,
        List.drop_append, List.get_cons_succ, List.drop_succ_cons]
      exact ih i (by simpa using hi)

theorem buildContent_eq (ck : Codec K) (cv : Codec V) (l : List (K × V)) :
    buildContent ck cv l =
      (((List.range l.length).map (entryOffset ck cv l)).map u32le).flatten
        ++ (l.map (encEntry ck cv)).flatten := by
  simp [buildContent, List.map_map, Function.comp_def]

theorem buildContent_length (ck : Codec K) (cv : Codec V) (l : List (K × V)) :
    (buildContent ck cv l).length =
      4 * l.length + ((l.map (fun e => (encEntry ck cv e).length)).sum) := by
  rw [buildContent_eq, List.length_append, join_map_u32le_length]
  simp [List.length_flatten, Function.comp_def]

theorem entryOffset_le (ck : Codec K) (cv : Codec V) (l : List (K × V)) (i : Nat) :
    entryOffset ck cv l i ≤ (buildContent ck cv l).length := by
  rw [buildContent_length, entryOffset]
  have h1 : (l.map (fun e => (encEntry ck cv e).length)).sum =
      ((l.take i).map (fun e => (encEntry ck cv e).length)).sum +
      ((l.drop i).map (fun e => (encEntry ck cv e).length)).sum := by
    rw [← List.sum_append, ← List.map_append, List.take_append_drop]
  omega

theorem build_offsetAt (ck : Codec K) (cv : Codec V) (l : List (K × V))
    (hfit : (buildContent ck cv l).length < 2 ^ 32) {i : Nat} (hi : i < l.length) :
    (DataPage.build ck cv l).offsetAt i = entryOffset ck cv l i := by
  have hlen : i < ((List.range l.length).map (entryOffset ck cv l)).length := by
    simpa using hi
  have hdrop := join_map_u32le_drop ((List.range l.length).map (entryOffset ck cv l)) i hlen
  simp only [DataPage.build, DataPage.offsetAt]
  show readU32le ((buildContent ck cv l).drop (4 * i)) = _
  rw [buildContent_eq,
    List.drop_append_of_le_length (by rw [join_map_u32le_length]; simp; omega),
    hdrop, List.append_assoc, readU32le_u32le, getD_map_range _ _ hi]
  have hle := entryOffset_le ck cv l i
  omega

theorem build_numEntries (ck : Codec K) (cv : Codec V) (l : List (K × V))
    (hfit : (buildContent ck cv l).length < 2 ^ 32) :
    (DataPage.build ck cv l).numEntries = l.length := by
  cases l with
  | nil => simp [DataPage.build, DataPage.numEntries, buildContent]
  | cons a t =>
    have hi : 0 < (a :: t).length := by simp
    have h0 : (DataPage.build ck cv (a :: t)).offsetAt 0 = entryOffset ck cv (a :: t) 0 :=
      build_offsetAt ck cv (a :: t) hfit hi
    have hlen := buildContent_length ck cv (a :: t)
    simp only [DataPage.offsetAt, Nat.mul_zero, List.drop_zero, DataPage.build] at h0
    simp only [DataPage.numEntries, DataPage.build]
    rw [if_neg (by omega), h0, entryOffset]
    simp

theorem build_drop_entryOffset (ck : Codec K) (cv : Codec V) (l : List (K × V))
    {i : Nat} (hi : i < l.length) :
    (buildContent ck cv l).drop (entryOffset ck cv l i) =
      encEntry ck cv (l.get ⟨i, hi⟩) ++ ((l.drop (i + 1)).map (encEntry ck cv)).flatten := by
  have hlen : (( ((List.range l.length).map (entryOffset ck cv l)).map u32le).flatten).length
      = 4 * l.length := by
    rw [join_map_u32le_length]; simp
  rw [buildContent_eq, entryOffset, ← hlen, List.drop_append]
  exact flatten_map_drop_presum _ l i hi

theorem build_entryAt (ck : Codec K) (cv : Codec V) (l : List (K × V))
    (hk : ck.Lawful) (hv : cv.Lawful)
    (hfit : (buildContent ck cv l).length < 2 ^ 32) (i : Nat) :
    (DataPage.build ck cv l).entryAt ck cv i = l.get? i := by
  by_cases hi : i < l.length
  · simp only [DataPage.entryAt, build_numEntries ck cv l hfit, hi, if_true]
    rw [build_offsetAt ck cv l hfit hi]
    show some _ = _
    rw [show (DataPage.build ck cv l).content = buildContent ck cv l from rfl,
      build_drop_entryOffset ck cv l hi]
    rw [encEntry, List.append_assoc, hk, hv]
    rw [List.get?_eq_get hi]
  · simp only [DataPage.entryAt, build_numEntries ck cv l hfit, hi, if_false]
    rw [List.get?_eq_none.mpr (by omega)]

theorem build_keyAtIdx (ck : Codec K) (cv : Codec V) (l : List (K × V))
    (hk : ck.Lawful)
    (hfit : (buildContent ck cv l).length < 2 ^ 32) {i : Nat} (hi : i < l.length) :
    (DataPage.build ck cv l).keyAtIdx ck i = (l.get ⟨i, hi⟩).1 := by
  simp only [DataPage.keyAtIdx]
  rw [build_offsetAt ck cv l hfit hi,
    show (DataPage.build ck cv l).content = buildContent ck cv l from rfl,
    build_drop_entryOffset ck cv l hi, encEntry, List.append_assoc, hk]

/-! ### Search correctness over a strictly sorted page -/

/-- The data-model invariant: entries strictly ascending under the key order. -/
def SortedKeys [LinearOrder K] (l : List (K × V)) : Prop :=
  l.Pairwise (fun a b => a.1 < b.1)

instance sortedKeysDecidable [LinearOrder K] (l : List (K × V)) :
    Decidable (SortedKeys l) :=
  inferInstanceAs (Decidable (l.Pairwise _))

theorem sorted_get_lt [LinearOrder K] {l : List (K × V)} (hs : SortedKeys l)
    {i j : Nat} (hij : i < j) (hj : j < l.length) :
    (l.get ⟨i, by omega⟩).1 < (l.get ⟨j, hj⟩).1 := by
  exact List.pairwise_iff_get.mp hs ⟨i, by omega⟩ ⟨j, hj⟩ hij

theorem build_keyAt_mono [LinearOrder K] (ck : Codec K) (cv : Codec V)
    {l : List (K × V)} (hk : ck.Lawful)
    (hfit : (buildContent ck cv l).length < 2 ^ 32) (hs : SortedKeys l) :
    ∀ i j, i < j → j < l.length →
      (DataPage.build ck cv l).keyAtIdx ck i < (DataPage.build ck cv l).keyAtIdx ck j := by
  intro i j hij hj
  rw [build_keyAtIdx ck cv l hk hfit (by omega), build_keyAtIdx ck cv l hk hfit hj]
  exact sorted_get_lt hs hij hj

theorem build_rank_spec [LinearOrder K] (ck : Codec K) (cv : Codec V)
    {l : List (K × V)} (hk : ck.Lawful)
    (hfit : (buildContent ck cv l).length < 2 ^ 32) (hs : SortedKeys l) (t : K) :
    (DataPage.build ck cv l).rank ck t ≤ l.length ∧
    (∀ i, i < (DataPage.build ck cv l).rank ck t →
      ∀ e, l.get? i = some e → e.1 < t) ∧
    (∀ e, l.get? ((DataPage.build ck cv l).rank ck t) = some e → t ≤ e.1) := by
  have hn : (DataPage.build ck cv l).numEntries = l.length := build_numEntries ck cv l hfit
  have hspec := rankLoop_spec ((DataPage.build ck cv l).keyAtIdx ck) t l.length
    (build_keyAt_mono ck cv hk hfit hs) l.length 0 l.length (by omega) (by omega)
    (le_refl _) (fun i hi => absurd hi (by omega)) (fun j hj hjn => absurd hjn (by omega))
  have hr : (DataPage.build ck cv l).rank ck t =
      rankLoop ((DataPage.build ck cv l).keyAtIdx ck) t 0 l.length := by
    simp only [DataPage.rank, hn]
  rw [hr]
  refine ⟨hspec.1, ?_, ?_⟩
  · intro i hi e he
    rcases List.get?_eq_some.mp he with ⟨hl, hge⟩
    have hkey := hspec.2.1 i hi
    rw [build_keyAtIdx ck cv l hk hfit hl, hge] at hkey
    exact hkey
  · intro e he
    rcases List.get?_eq_some.mp he with ⟨hl, hge⟩
    have hkey := hspec.2.2 hl
    rw [build_keyAtIdx ck cv l hk hfit hl, hge] at hkey
    exact hkey

theorem find_of_first {α : Type} (p : α → Bool) (l : List α) :
    ∀ (ρ : Nat) (e : α), l.get? ρ = some e → p e = true →
      (∀ i (hl : i < l.length), i < ρ → p (l.get ⟨i, hl⟩) = false) →
      l.find? p = some e := by
  induction l with
  | nil => intro ρ e he; simp [List.get?] at he
  | cons a t ih =>
    intro ρ e he hpe hlt
    cases ρ with
    | zero =>
      simp only [List.get?] at he
      cases he
      rw [List.find?_cons_of_pos _ hpe]
    | succ ρ =>
      have hpa : p a = false := hlt 0 (by simp) (by omega)
      rw [List.find?_cons_of_neg _ (by simp [hpa])]
      exact ih ρ e he hpe (fun i hl hi => hlt (i + 1) (by simpa using hl) (by omega))

theorem seekBackAux_take [LinearOrder K] (l : List (K × V)) (t : K)
    (g : Nat → Option (K × V)) (hg : ∀ i, g i = l.get? i) :
    ∀ m, seekBackAux g t m =
      ((l.take (m + 1)).filter (fun e => decide (e.1 ≤ t))).getLast? := by
  intro m
  induction m with
  | zero =>
    rw [seekBackAux, hg 0]
    cases l with
    | nil => simp
    | cons a s =>
      simp only [List.get?, List.take_succ_cons, List.take_zero]
      by_cases hp : a.1 ≤ t
      · simp [hp, List.filter]
      · simp [hp, List.filter]
  | succ m ih =>
    rw [seekBackAux, hg (m + 1)]
    rcases he : l.get? (m + 1) with _ | e
    · have hlen : l.length ≤ m + 1 := by
        by_contra hcon
        rw [List.get?_eq_get (by omega)] at he
        exact absurd he (by simp)
      rw [ih, List.take_of_length_le (by omega), List.take_of_length_le (by omega)]
    · have hlen : m + 1 < l.length := by
        by_contra hcon
        rw [List.get?_eq_none.mpr (by omega)] at he
        exact absurd he (by simp)
      have htake : l.take (m + 1 + 1) = l.take (m + 1) ++ [e] := by
        rw [List.get?_eq_getElem?] at he
        rw [List.take_succ, he]
        rfl
      by_cases hp : e.1 ≤ t
      · simp only [hp, if_true]
        rw [htake, List.filter_append]
        simp [hp]
      · simp only [hp, if_false]
        rw [ih, htake, List.filter_append]
        simp [hp]

/-! ### The data page iterator (`DataPageIter`) -/

structure DataPageIterSt (K V : Type) where
  page : DataPage
  nextIdx : Nat
  lastE : Option (K × V)

/-- `DataPageIter::next`: `self.last = self.page.get(self.next).map(|e| { self.next += 1; e })`. -/
def DataPageIterSt.doNext (ck : Codec K) (cv : Codec V) (it : DataPageIterSt K V) :
    DataPageIterSt K V :=
  match it.page.entryAt ck cv it.nextIdx with
  | some e => ⟨it.page, it.nextIdx + 1, some e⟩
  | none => ⟨it.page, it.nextIdx, none⟩

/-- `DataPageIter::new` / `rewind`: position 0, no last entry. -/
def DataPageIterSt.init (p : DataPage) : DataPageIterSt K V := ⟨p, 0, none⟩

/-- `DataPageIter::rewind`: `self.next = 0; self.last = None`. -/
def DataPageIterSt.doRewind (it : DataPageIterSt K V) : DataPageIterSt K V :=
  ⟨it.page, 0, none⟩

/-- Exhaust the iterator by repeated `next`, collecting the returned entries. -/
def dpCollect (ck : Codec K) (cv : Codec V) : Nat → DataPageIterSt K V → List (K × V)
  | 0, _ => []
  | fuel + 1, it =>
    let it2 := it.doNext ck cv
    match it2.lastE with
    | some e => e :: dpCollect ck cv fuel it2
    | none => []

theorem dpCollect_build (ck : Codec K) (cv : Codec V) (l : List (K × V))
    (hk : ck.Lawful) (hv : cv.Lawful)
    (hfit : (buildContent ck cv l).length < 2 ^ 32) :
    ∀ fuel i la, i ≤ l.length → l.length - i < fuel →
      dpCollect ck cv fuel ⟨DataPage.build ck cv l, i, la⟩ = l.drop i := by
  intro fuel
  induction fuel with
  | zero => intro i la hi hf; omega
  | succ fuel ih =>
    intro i la hi hf
    by_cases hil : i < l.length
    · have hee : (DataPage.build ck cv l).entryAt ck cv i = some (l.get ⟨i, hil⟩) := by
        rw [build_entryAt ck cv l hk hv hfit i, List.get?_eq_get hil]
      rw [dpCollect]
      simp only [DataPageIterSt.doNext, hee]
      rw [ih (i + 1) _ (by omega) (by omega), List.drop_eq_get_cons hil]
    · have hend : i = l.length := by omega
      have hee : (DataPage.build ck cv l).entryAt ck cv i = none := by
        rw [build_entryAt ck cv l hk hv hfit i, List.get?_eq_none.mpr (by omega)]
      rw [dpCollect]
      simp only [DataPageIterSt.doNext, hee]
      rw [hend, List.drop_length]

/-- C5: building a data page with `build_from_iter` from the entries of a
rewindable iterator (both passes visit the same list `l`) and then exhausting
the page's `iter()` by repeated `next()` yields exactly the input entries,
hence the same multiset. -/
theorem c5_build_iter_roundtrip (ck : Codec K) (cv : Codec V) (l : List (K × V))
    (hk : ck.Lawful) (hv : cv.Lawful)
    (hfit : (buildContent ck cv l).length < 2 ^ 32)
    (fuel : Nat) (hf : l.length < fuel) :
    dpCollect ck cv fuel (DataPageIterSt.init (DataPage.build ck cv l)) = l ∧
    (dpCollect ck cv fuel (DataPageIterSt.init (DataPage.build ck cv l))).Perm l := by
  have h := dpCollect_build ck cv l hk hv hfit fuel 0 none (by omega) (by omega)
  rw [List.drop_zero] at h
  simp only [DataPageIterSt.init]
  exact ⟨h, by rw [h]⟩

/-- C7: on a data page built from a strictly ascending entry list, `seek`
returns the first entry whose key is no less than the target (`find?` of the
predicate `target ≤ key`, `none` when every key is smaller), and `seek_back`
returns the last entry whose key is no greater than the target (the last
element surviving the filter `key ≤ target`, `none` when every key exceeds
the target). -/
theorem c7_seek_seekBack [LinearOrder K] (ck : Codec K) (cv : Codec V)
    (l : List (K × V)) (t : K) (hk : ck.Lawful) (hv : cv.Lawful)
    (hfit : (buildContent ck cv l).length < 2 ^ 32) (hs : SortedKeys l) :
    (DataPage.build ck cv l).seek ck cv t = l.find? (fun e => decide (t ≤ e.1)) ∧
    (DataPage.build ck cv l).seekBack ck cv t =
      (l.filter (fun e => decide (e.1 ≤ t))).getLast? := by
  have hspec := build_rank_spec ck cv hk hfit hs t
  set ρ := (DataPage.build ck cv l).rank ck t with hρ
  constructor
  · show (DataPage.build ck cv l).entryAt ck cv ρ = _
    rw [build_entryAt ck cv l hk hv hfit ρ]
    rcases hρe : l.get? ρ with _ | e
    · have hρn : ρ = l.length := by
        rcases Nat.lt_or_ge ρ l.length with hlt | hge
        · rw [List.get?_eq_get hlt] at hρe; exact absurd hρe (by simp)
        · omega
      symm
      rw [List.find?_eq_none]
      intro e he
      rcases List.mem_iff_get.mp he with ⟨⟨i, hl⟩, hge⟩
      have := hspec.2.1 i (by omega) e (by rw [List.get?_eq_get hl, hge])
      simpa using this
    · symm
      apply find_of_first
      · exact hρe
      · simpa using hspec.2.2 e hρe
      · intro i hl hi
        have := hspec.2.1 i hi (l.get ⟨i, hl⟩) (List.get?_eq_get hl)
        simpa using this
  · show seekBackAux ((DataPage.build ck cv l).entryAt ck cv) t ρ = _
    rw [seekBackAux_take l t _ (build_entryAt ck cv l hk hv hfit)]
    have hsplit : l = l.take (ρ + 1) ++ l.drop (ρ + 1) := (List.take_append_drop _ l).symm
    have hnil : (l.drop (ρ + 1)).filter (fun e => decide (e.1 ≤ t)) = [] := by
      rw [List.filter_eq_nil_iff]
      intro e he
      rcases List.mem_iff_get.mp he with ⟨⟨k, hkl⟩, hge⟩
      have hidx : l.length - (ρ + 1) = (l.drop (ρ + 1)).length := by
        rw [List.length_drop]
      have hρn : ρ < l.length := by
        have := (List.length_drop (ρ + 1) l) ▸ hkl
        omega
      have hρk : ρ + 1 + k < l.length := by
        have := (List.length_drop (ρ + 1) l) ▸ hkl
        omega
      have hget : (l.drop (ρ + 1)).get ⟨k, hkl⟩ = l.get ⟨ρ + 1 + k, hρk⟩ := by
        simp only [List.get_eq_getElem, List.getElem_drop']
      have htρ : t ≤ (l.get ⟨ρ, hρn⟩).1 :=
        hspec.2.2 _ (List.get?_eq_get hρn)
      have hmono : (l.get ⟨ρ, hρn⟩).1 < (l.get ⟨ρ + 1 + k, hρk⟩).1 :=
        sorted_get_lt hs (by omega) hρk
      rw [hget] at hge
      rw [hge] at hmono
      simp only [Bool.not_eq_true, decide_eq_false_iff_not]
      exact not_le.mpr (lt_of_le_of_lt htρ hmono)
    conv_rhs => rw [hsplit]
    rw [List.filter_append, hnil, List.append_nil]

/-- C8: on a page built with `n ≥ 1` entries the first little-endian `u32` of
the content (`offsets[0]`) equals `4 * n`, `DataPageRef::new` recovers `n`
from that word alone, and a page with zero content size recovers 0 entries. -/
theorem c8_offsets_head (ck : Codec K) (cv : Codec V) (l : List (K × V))
    (hfit : (buildContent ck cv l).length < 2 ^ 32) (hne : l ≠ []) :
    readU32le (DataPage.build ck cv l).content = 4 * l.length ∧
    (DataPage.build ck cv l).numEntries = l.length ∧
    (∀ p : DataPage, p.content.length = 0 → p.numEntries = 0) := by
  have hi : 0 < l.length := List.length_pos.mpr hne
  have h0 := build_offsetAt ck cv l hfit hi
  simp only [DataPage.offsetAt, Nat.mul_zero, List.drop_zero] at h0
  refine ⟨?_, build_numEntries ck cv l hfit, ?_⟩
  · rw [h0, entryOffset]
    simp
  · intro p hp
    simp [DataPage.numEntries, hp]

/-! ### A concrete lawful codec for witnesses (unary, 0-terminated) -/

def natCodec : Codec Nat where
  enc := fun x => List.replicate x 1 ++ [0]
  dec := fun b =>
    ((b.takeWhile (fun c => c != 0)).length, (b.dropWhile (fun c => c != 0)).drop 1)

theorem natCodec_lawful : natCodec.Lawful := by
  intro a rest
  induction a with
  | zero => simp [natCodec, Codec.Lawful, List.takeWhile, List.dropWhile]
  | succ a ih =>
    simp only [natCodec] at ih ⊢
    simp only [List.replicate_succ, List.cons_append, List.takeWhile_cons,
      List.dropWhile_cons]
    norm_num

theorem c5_witness :
    dpCollect natCodec natCodec 6
      (DataPageIterSt.init
        (DataPage.build natCodec natCodec [(1, 10), (2, 20), (4, 40), (7, 70), (8, 80)])) =
      [(1, 10), (2, 20), (4, 40), (7, 70), (8, 80)] ∧
    (dpCollect natCodec natCodec 6
      (DataPageIterSt.init
        (DataPage.build natCodec natCodec
          [(1, 10), (2, 20), (4, 40), (7, 70), (8, 80)]))).Perm
      [(1, 10), (2, 20), (4, 40), (7, 70), (8, 80)] :=
  c5_build_iter_roundtrip natCodec natCodec _ natCodec_lawful natCodec_lawful
    (by decide) 6 (by decide)

theorem c7_witness :
    (DataPage.build natCodec natCodec
        [(1, 10), (2, 20), (4, 40), (7, 70), (8, 80)]).seek natCodec natCodec 3 =
      [(1, 10), (2, 20), (4, 40), (7, 70), (8, 80)].find? (fun e => decide (3 ≤ e.1)) ∧
    (DataPage.build natCodec natCodec
        [(1, 10), (2, 20), (4, 40), (7, 70), (8, 80)]).seekBack natCodec natCodec 3 =
      ([(1, 10), (2, 20), (4, 40), (7, 70), (8, 80)].filter
        (fun e => decide (e.1 ≤ 3))).getLast? :=
  c7_seek_seekBack natCodec natCodec _ 3 natCodec_lawful natCodec_lawful
    (by decide) (by decide)

theorem c8_witness :
    readU32le (DataPage.build natCodec natCodec
        [(1, 10), (2, 20), (4, 40), (7, 70), (8, 80)]).content = 4 * 5 ∧
    (DataPage.build natCodec natCodec
        [(1, 10), (2, 20), (4, 40), (7, 70), (8, 80)]).numEntries = 5 ∧
    (∀ p : DataPage, p.content.length = 0 → p.numEntries = 0) :=
  c8_offsets_head natCodec natCodec [(1, 10), (2, 20), (4, 40), (7, 70), (8, 80)]
    (by decide) (by decide)

/-! ## Chain lookup (`BTree::lookup_value`)

`lookup_value` walks the leaf's chain head to tail; on each data page it
calls `seek(&key)` and stops at the first page whose found entry has the
same user bytes as the key.  Pages are represented by their decoded entry
lists (the byte-level bridge above shows `seek` on a built page equals the
list-level search below). -/

def listKeyAt (l : List (K × V)) (t : K) (i : Nat) : K :=
  ((l.get? i).map Prod.fst).getD t

/-- `DataPageRef::rank` at the level of the decoded entry list. -/
def rankL [LinearOrder K] (l : List (K × V)) (t : K) : Nat :=
  rankLoop (listKeyAt l t) t 0 l.length

/-- `DataPageRef::seek` at the level of the decoded entry list. -/
def seekL [LinearOrder K] (l : List (K × V)) (t : K) : Option (K × V) :=
  l.get? (rankL l t)

theorem rankL_spec [LinearOrder K] {l : List (K × V)} (hs : SortedKeys l) (t : K) :
    rankL l t ≤ l.length ∧
    (∀ i, i < rankL l t → ∀ e, l.get? i = some e → e.1 < t) ∧
    (∀ e, l.get? (rankL l t) = some e → t ≤ e.1) := by
  have hmono : ∀ i j, i < j → j < l.length → listKeyAt l t i < listKeyAt l t j := by
    intro i j hij hj
    simp only [listKeyAt, List.get?_eq_get hj, List.get?_eq_get (show i < l.length by omega)]
    exact sorted_get_lt hs hij hj
  have hspec := rankLoop_spec (listKeyAt l t) t l.length hmono l.length 0 l.length
    (by omega) (by omega) (le_refl _)
    (fun i hi => absurd hi (by omega)) (fun j hj hjn => absurd hjn (by omega))
  have hrdef : rankL l t = rankLoop (listKeyAt l t) t 0 l.length := rfl
  refine ⟨hspec.1, ?_, ?_⟩
  · intro i hi e he
    have h2 := hspec.2.1 i (by rw [hrdef] at hi; exact hi)
    have hk : listKeyAt l t i = e.1 := by
      simp only [listKeyAt]
      rw [he]
      rfl
    rwa [hk] at h2
  · intro e he
    rcases List.get?_eq_some.mp he with ⟨hl, hge⟩
    have h2 := hspec.2.2 (by rw [← hrdef]; exact hl)
    rw [← hrdef] at h2
    have hk : listKeyAt l t (rankL l t) = e.1 := by
      simp only [listKeyAt]
      rw [he]
      rfl
    rwa [hk] at h2

theorem Key.le_def {a b : Key} :
    a ≤ b ↔ a.raw < b.raw ∨ (a.raw = b.raw ∧ b.lsn ≤ a.lsn) := by
  rw [le_iff_lt_or_eq, Key.lt_def]
  constructor
  · rintro ((h1 | ⟨h1, h2⟩) | rfl)
    · exact Or.inl h1
    · exact Or.inr ⟨h1, by omega⟩
    · exact Or.inr ⟨rfl, le_refl _⟩
  · rintro (h1 | ⟨h1, h2⟩)
    · exact Or.inl (Or.inl h1)
    · rcases Nat.lt_or_ge a.lsn b.lsn with hlt | hge
      · omega
      · rcases Nat.eq_or_lt_of_le h2 with heq | hlt2
        · refine Or.inr ?_
          cases a; cases b
          simp_all
        · exact Or.inl (Or.inr ⟨h1, hlt2⟩)

theorem Key.raw_le_of_le {a b : Key} (h : a ≤ b) : a.raw ≤ b.raw := by
  rcases Key.le_def.mp h with h1 | ⟨h1, _⟩
  · exact le_of_lt h1
  · exact le_of_eq h1

/-- The one-entry delta page built by `BTree::update` for `put`, prepended
to the node's chain (`delta.set_next(head)`). -/
def putDelta (raw : List Nat) (lsn : Nat) (v : List Nat)
    (chain : List (List (Key × Value))) : List (List (Key × Value)) :=
  [(⟨raw, lsn⟩, Value.put v)] :: chain

/-- `BTree::lookup_value`: walk the chain; on each page `seek(&key)`, and stop
at the first entry whose user bytes match, turning its value into bytes
(`Put` → `Some`, tombstone → `None`). -/
def lookupValue : List (List (Key × Value)) → Key → Option (List Nat)
  | [], _ => none
  | page :: rest, key =>
    match seekL page key with
    | some e => if e.1.raw = key.raw then e.2.toBytes else lookupValue rest key
    | none => lookupValue rest key

/-- Entries visible to `get(key.raw, key.lsn)`: same user bytes, LSN at most
the read LSN. -/
def candidates (chain : List (List (Key × Value))) (key : Key) : List (Key × Value) :=
  chain.flatten.filter (fun e => decide (e.1.raw = key.raw) && decide (e.1.lsn ≤ key.lsn))

/-- The freshest visible entry: the candidate with the largest LSN. -/
def freshest (chain : List (List (Key × Value))) (key : Key) : Option (Key × Value) :=
  (candidates chain key).argmax (fun e => e.1.lsn)

/-- Chain well-formedness: each page strictly sorted, and entries for the same
user key are fresher (larger LSN) in pages nearer the head. -/
def WellFormedChain (chain : List (List (Key × Value))) : Prop :=
  (∀ p ∈ chain, SortedKeys p) ∧
  chain.Pairwise (fun p q => ∀ e ∈ p, ∀ e2 ∈ q, e.1.raw = e2.1.raw → e2.1.lsn < e.1.lsn)

theorem key_le_same_raw {raw : List Nat} {lsn l2 : Nat} :
    (Key.mk raw lsn ≤ Key.mk raw l2) ↔ l2 ≤ lsn := by
  rw [Key.le_def]
  simp

theorem key_le_of_raw_lsn {key k : Key} (hraw : k.raw = key.raw)
    (hlsn : k.lsn ≤ key.lsn) : key ≤ k := by
  have hk : k = Key.mk key.raw k.lsn := by rw [← hraw]
  rw [hk]
  exact key_le_same_raw.mpr hlsn

theorem key_lsn_le_of_le {key a b : Key} (ha : a.raw = key.raw) (hb : b.raw = key.raw)
    (hab : a ≤ b) : b.lsn ≤ a.lsn := by
  have ha2 : a = Key.mk key.raw a.lsn := by rw [← ha]
  have hb2 : b = Key.mk key.raw b.lsn := by rw [← hb]
  rw [ha2, hb2] at hab
  exact key_le_same_raw.mp hab

theorem seekL_raw_match {page : List (Key × Value)} (hs : SortedKeys page) {key : Key}
    {e : Key × Value} (he : seekL page key = some e) (hraw : e.1.raw = key.raw) :
    e.1.lsn ≤ key.lsn ∧
      ∀ e2 ∈ page, e2.1.raw = key.raw → e2.1.lsn ≤ key.lsn → e2.1.lsn ≤ e.1.lsn := by
  have hspec := rankL_spec hs key
  have hget : page.get? (rankL page key) = some e := he
  have hke : key ≤ e.1 := hspec.2.2 e hget
  have hlsn : e.1.lsn ≤ key.lsn := key_lsn_le_of_le rfl hraw hke
  refine ⟨hlsn, ?_⟩
  intro e2 h2mem h2raw h2lsn
  rcases List.mem_iff_get.mp h2mem with ⟨⟨i2, hl2⟩, hge2⟩
  have hkey2 : key ≤ e2.1 := key_le_of_raw_lsn h2raw h2lsn
  have hge : rankL page key ≤ i2 := by
    by_contra hcon
    have := hspec.2.1 i2 (by omega) e2 (by rw [List.get?_eq_get hl2, hge2])
    exact absurd this (not_lt.mpr hkey2)
  have hee2 : e.1 ≤ e2.1 := by
    rcases Nat.eq_or_lt_of_le hge with heq | hlt
    · have hρ2 : rankL page key < page.length := by omega
      have hgete : page.get ⟨rankL page key, hρ2⟩ = e := by
        rw [List.get?_eq_get hρ2] at hget
        injection hget
      have hfin : (⟨rankL page key, hρ2⟩ : Fin page.length) = ⟨i2, hl2⟩ := Fin.ext heq
      rw [← hgete, hfin, hge2]
    · have := sorted_get_lt hs hlt hl2
      rw [hge2] at this
      have hgete : page.get ⟨rankL page key, by omega⟩ = e := by
        rw [List.get?_eq_get (by omega : rankL page key < page.length)] at hget
        injection hget
      rw [hgete] at this
      exact le_of_lt this
  exact key_lsn_le_of_le hraw h2raw hee2

theorem seekL_finds_candidate {page : List (Key × Value)} (hs : SortedKeys page)
    {key : Key} {e2 : Key × Value} (h2mem : e2 ∈ page) (h2raw : e2.1.raw = key.raw)
    (h2lsn : e2.1.lsn ≤ key.lsn) :
    ∃ e, seekL page key = some e ∧ e.1.raw = key.raw := by
  have hspec := rankL_spec hs key
  rcases List.mem_iff_get.mp h2mem with ⟨⟨i2, hl2⟩, hge2⟩
  have hkey2 : key ≤ e2.1 := key_le_of_raw_lsn h2raw h2lsn
  have hge : rankL page key ≤ i2 := by
    by_contra hcon
    have := hspec.2.1 i2 (by omega) e2 (by rw [List.get?_eq_get hl2, hge2])
    exact absurd this (not_lt.mpr hkey2)
  have hρ : rankL page key < page.length := by omega
  set e := page.get ⟨rankL page key, hρ⟩ with hedef
  have hsome : seekL page key = some e := by
    show page.get? _ = _
    rw [List.get?_eq_get hρ]
  refine ⟨e, hsome, ?_⟩
  have hke : key ≤ e.1 := hspec.2.2 e hsome
  have hee2 : e.1 ≤ e2.1 := by
    rcases Nat.eq_or_lt_of_le hge with heq | hlt
    · have hfin : (⟨rankL page key, hρ⟩ : Fin page.length) = ⟨i2, hl2⟩ := Fin.ext heq
      rw [hedef, ← hge2, hfin]
    · have := sorted_get_lt hs hlt hl2
      rw [hge2] at this
      exact le_of_lt this
  have h1 : key.raw ≤ e.1.raw := Key.raw_le_of_le hke
  have h2 : e.1.raw ≤ e2.1.raw := Key.raw_le_of_le hee2
  rw [h2raw] at h2
  exact le_antisymm h2 h1

theorem mem_candidates {chain : List (List (Key × Value))} {key : Key} {m : Key × Value} :
    m ∈ candidates chain key ↔
      m ∈ chain.flatten ∧ m.1.raw = key.raw ∧ m.1.lsn ≤ key.lsn := by
  simp only [candidates, List.mem_filter, List.mem_flatten, Bool.and_eq_true,
    decide_eq_true_eq, and_assoc]

theorem candidates_cons (page : List (Key × Value)) (rest : List (List (Key × Value)))
    (key : Key) :
    candidates (page :: rest) key =
      page.filter (fun e => decide (e.1.raw = key.raw) && decide (e.1.lsn ≤ key.lsn))
        ++ candidates rest key := by
  simp [candidates, List.filter_append]

theorem candidates_pairwise {chain : List (List (Key × Value))}
    (hwf : WellFormedChain chain) (key : Key) :
    (candidates chain key).Pairwise (fun a b => b.1.lsn < a.1.lsn) := by
  have hflat : chain.flatten.Pairwise
      (fun a b : Key × Value => a.1.raw = b.1.raw → b.1.lsn < a.1.lsn) := by
    rw [List.pairwise_flatten]
    refine ⟨?_, ?_⟩
    · intro p hp
      refine (hwf.1 p hp).imp ?_
      intro a b hab hraw
      rcases Key.lt_def.mp hab with h1 | ⟨h1, h2⟩
      · rw [hraw] at h1
        exact absurd h1 (lt_irrefl _)
      · exact h2
    · exact hwf.2.imp (fun h => h)
  have hfil := hflat.filter
    (fun e => decide (e.1.raw = key.raw) && decide (e.1.lsn ≤ key.lsn))
  simp only [candidates]
  refine hfil.imp_of_mem ?_
  intro a b ha hb hR
  rw [List.mem_filter] at ha hb
  have haraw : a.1.raw = key.raw := by
    have := ha.2
    simp only [Bool.and_eq_true, decide_eq_true_eq] at this
    exact this.1
  have hbraw : b.1.raw = key.raw := by
    have := hb.2
    simp only [Bool.and_eq_true, decide_eq_true_eq] at this
    exact this.1
  exact hR (haraw.trans hbraw.symm)

theorem lookupValue_eq_freshest :
    ∀ chain, WellFormedChain chain → ∀ key,
      lookupValue chain key = (freshest chain key).bind (fun e => e.2.toBytes) := by
  intro chain
  induction chain with
  | nil =>
    intro hwf key
    simp [lookupValue, freshest, candidates]
  | cons page rest ih =>
    intro hwf key
    obtain ⟨hsortedAll, hcross⟩ := hwf
    have hsp : SortedKeys page := hsortedAll page (by simp)
    have hwfrest : WellFormedChain rest :=
      ⟨fun p hp => hsortedAll p (by simp [hp]), (List.pairwise_cons.mp hcross).2⟩
    have hcrossHead := (List.pairwise_cons.mp hcross).1
    by_cases hc : ∃ e2 ∈ page, e2.1.raw = key.raw ∧ e2.1.lsn ≤ key.lsn
    · obtain ⟨e2, h2mem, h2raw, h2lsn⟩ := hc
      obtain ⟨e0, he0, he0raw⟩ := seekL_finds_candidate hsp h2mem h2raw h2lsn
      obtain ⟨he0lsn, he0max⟩ := seekL_raw_match hsp he0 he0raw
      have he0mem : e0 ∈ page := List.get?_mem he0
      have hLHS : lookupValue (page :: rest) key = e0.2.toBytes := by
        rw [lookupValue, he0]
        simp [he0raw]
      have he0cand : e0 ∈ candidates (page :: rest) key := by
        rw [mem_candidates]
        exact ⟨by simp [he0mem], he0raw, he0lsn⟩
      have hmax : ∀ m ∈ candidates (page :: rest) key, m.1.lsn ≤ e0.1.lsn := by
        intro m hm
        rw [mem_candidates] at hm
        obtain ⟨hmf, hmraw, hmlsn⟩ := hm
        rw [List.flatten_cons, List.mem_append] at hmf
        rcases hmf with hmp | hmr
        · exact he0max m hmp hmraw hmlsn
        · rw [List.mem_flatten] at hmr
          obtain ⟨q, hq, hmq⟩ := hmr
          exact le_of_lt (hcrossHead q hq e0 he0mem m hmq (he0raw.trans hmraw.symm))
      rcases hargm : (candidates (page :: rest) key).argmax (fun e => e.1.lsn)
        with _ | m
      · rw [List.argmax_eq_none] at hargm
        rw [hargm] at he0cand
        exact absurd he0cand (List.not_mem_nil e0)
      · have hargm2 : m ∈ (candidates (page :: rest) key).argmax (fun e => e.1.lsn) :=
          Option.mem_def.mpr hargm
        have hmmem := List.argmax_mem hargm2
        have h1x := List.le_of_mem_argmax he0cand hargm2
        have h1 : e0.1.lsn ≤ m.1.lsn := h1x
        have h2 : m.1.lsn ≤ e0.1.lsn := hmax m hmmem
        have hmraw : m.1.raw = key.raw := (mem_candidates.mp hmmem).2.1
        have hmeq : m = e0 := by
          by_contra hne2
          have hpw := (candidates_pairwise ⟨hsortedAll, hcross⟩ key).imp
            (fun h => (Nat.ne_of_lt h).symm)
          have := hpw.forall (fun _ _ h => Ne.symm h) hmmem he0cand hne2
          omega
        rw [freshest, hargm, hmeq, Option.some_bind]
        exact hLHS
    · push_neg at hc
      have hLHS : lookupValue (page :: rest) key = lookupValue rest key := by
        cases hse : seekL page key with
        | none => rw [lookupValue, hse]
        | some e =>
          rw [lookupValue, hse]
          have hraw : ¬ e.1.raw = key.raw := by
            intro hraw
            obtain ⟨helsn, _⟩ := seekL_raw_match hsp hse hraw
            exact absurd helsn (Nat.not_le.mpr (hc e (List.get?_mem hse) hraw))
          simp [hraw]
      have hfilter : page.filter
          (fun e => decide (e.1.raw = key.raw) && decide (e.1.lsn ≤ key.lsn)) = [] := by
        rw [List.filter_eq_nil_iff]
        intro e he
        simp only [Bool.and_eq_true, decide_eq_true_eq, not_and]
        intro hraw
        exact Nat.not_le.mpr (hc e he hraw)
      rw [hLHS, ih hwfrest key]
      rw [freshest, freshest, candidates_cons, hfilter, List.nil_append]

/-- C1: `put(k, l, v)` prepends a one-entry delta page, after which
`get(k, l)` on the same chain returns `Some(v)`; in general, on a well-formed
chain (each page strictly sorted, entries fresher towards the head),
`lookup_value` returns the value of the freshest entry whose user key equals
the lookup key and whose LSN is at most the lookup LSN — the bytes of a `Put`,
`None` for a tombstone, and `None` when no such entry exists. -/
theorem c1_put_get (raw : List Nat) (lsn : Nat) (v : List Nat)
    (c chain : List (List (Key × Value))) (key : Key)
    (hwf : WellFormedChain chain) :
    lookupValue (putDelta raw lsn v c) ⟨raw, lsn⟩ = some v ∧
    lookupValue chain key = (freshest chain key).bind (fun e => e.2.toBytes) := by
  refine ⟨?_, lookupValue_eq_freshest chain hwf key⟩
  have hrank : rankL [(Key.mk raw lsn, Value.put v)] ⟨raw, lsn⟩ = 0 := by
    rw [rankL, rankLoop]
    have hcmp : compare (listKeyAt [(Key.mk raw lsn, Value.put v)] ⟨raw, lsn⟩ 0)
        (Key.mk raw lsn) = Ordering.eq := by
      apply compare_eq_iff_eq.mpr
      simp [listKeyAt]
    simp [hcmp]
  have hseek : seekL [(Key.mk raw lsn, Value.put v)] ⟨raw, lsn⟩ =
      some (Key.mk raw lsn, Value.put v) := by
    show List.get? _ (rankL _ _) = _
    rw [hrank]
    rfl
  rw [putDelta, lookupValue, hseek]
  simp [Value.toBytes]

theorem c1_witness :
    lookupValue
        (putDelta [97] 2 [121] [[(Key.mk [97] 1, Value.put [120])]])
        ⟨[97], 2⟩ = some [121] ∧
    lookupValue [[(Key.mk [97] 2, Value.delete)], [(Key.mk [97] 1, Value.put [120])]]
        ⟨[97], 2⟩ =
      (freshest [[(Key.mk [97] 2, Value.delete)], [(Key.mk [97] 1, Value.put [120])]]
        ⟨[97], 2⟩).bind (fun e => e.2.toBytes) :=
  c1_put_get [97] 2 [121] [[(Key.mk [97] 1, Value.put [120])]]
    [[(Key.mk [97] 2, Value.delete)], [(Key.mk [97] 1, Value.put [120])]]
    ⟨[97], 2⟩ (by constructor <;> decide)

/-! ## Iterators (`iter.rs`)

`SliceIter` wraps a slice (`data`, the walking suffix `iter`, and `last`);
`OptionIter` wraps an option; `MergingIter` keeps a binary max-heap of
`ReverseIter`-wrapped children plus a `children` buffer.  `BinaryHeap` is
modelled as a plain list whose `pop`/`peek` select the first maximal element
under the `ReverseIter` ordering and whose `push` prepends; `into_vec`
returns the list as is.  This fixes one of the element orders the Rust
`BinaryHeap` (whose internal order is unspecified) can produce. -/

structure SliceIterSt (E : Type) where
  data : List E
  iter : List E
  lastE : Option E
deriving DecidableEq, Repr

def SliceIterSt.init {E : Type} (data : List E) : SliceIterSt E := ⟨data, data, none⟩

/-- `SliceIter::next`: `self.last = self.iter.next(); self.last`. -/
def SliceIterSt.doNext {E : Type} (s : SliceIterSt E) : SliceIterSt E :=
  ⟨s.data, s.iter.tail, s.iter.head?⟩

/-- `SliceIter::rewind`: `self.iter = self.data.iter(); self.last = None`. -/
def SliceIterSt.doRewind {E : Type} (s : SliceIterSt E) : SliceIterSt E :=
  ⟨s.data, s.data, none⟩

def sliceCollect {E : Type} : Nat → SliceIterSt E → List E
  | 0, _ => []
  | fuel + 1, s =>
    let s2 := s.doNext
    match s2.lastE with
    | some e => e :: sliceCollect fuel s2
    | none => []

structure OptionIterSt (E : Type) where
  nextE : Option E
  lastE : Option E
deriving DecidableEq, Repr

def OptionIterSt.init {E : Type} (e : Option E) : OptionIterSt E := ⟨e, none⟩

/-- `OptionIter::next`: on `Some`, move it into `last` and return it; on
`None`, leave the state and return `None` (note `last` is kept). -/
def OptionIterSt.doNext {E : Type} (s : OptionIterSt E) : OptionIterSt E × Option E :=
  match s.nextE with
  | some e => (⟨none, some e⟩, some e)
  | none => (s, none)

/-- `OptionIter::rewind`: `if let Some(last) = self.last.take() { self.next = Some(last) }`. -/
def OptionIterSt.doRewind {E : Type} (s : OptionIterSt E) : OptionIterSt E :=
  match s.lastE with
  | some l => ⟨some l, none⟩
  | none => s

def optCollect {E : Type} : Nat → OptionIterSt E → List E
  | 0, _ => []
  | fuel + 1, s =>
    match s.doNext with
    | (s2, some e) => e :: optCollect fuel s2
    | (_, none) => []

def optStepN {E : Type} : Nat → OptionIterSt E → OptionIterSt E
  | 0, s => s
  | k + 1, s => optStepN k (s.doNext).1

/-- The `Ord` instance of `ReverseIter`: compare the children's last entries
by key in reverse order; an exhausted child sorts below a live one. -/
def childCmp [LinearOrder K] (a b : SliceIterSt (K × V)) : Ordering :=
  match a.lastE, b.lastE with
  | some x, some y => compare y.1 x.1
  | some _, none => .gt
  | none, some _ => .lt
  | none, none => .eq

/-- `BinaryHeap::pop` (also the element that `peek` sees): remove the first
maximal element under `childCmp`. -/
def popMax [LinearOrder K] :
    List (SliceIterSt (K × V)) →
      Option (SliceIterSt (K × V) × List (SliceIterSt (K × V)))
  | [] => none
  | c :: cs =>
    match popMax cs with
    | none => some (c, [])
    | some (m, rest) =>
      if childCmp c m = .lt then some (m, c :: rest) else some (c, m :: rest)

structure MergingSt (K V : Type) where
  heap : List (SliceIterSt (K × V))
  children : List (SliceIterSt (K × V))
deriving DecidableEq, Repr

/-- `MergingIterBuilder::build`: no heap yet, children in push order. -/
def MergingSt.build (ls : List (List (K × V))) : MergingSt K V :=
  ⟨[], ls.map SliceIterSt.init⟩

/-- `MergingIter::next`: pop the top, advance it, push it back; on an empty
heap run `init_heap` (prime every child with one `next`, then heapify). -/
def MergingSt.doNext [LinearOrder K] (s : MergingSt K V) : MergingSt K V :=
  match popMax s.heap with
  | some (c, rest) => ⟨c.doNext :: rest, s.children⟩
  | none => ⟨s.children.map SliceIterSt.doNext, []⟩

/-- `MergingIter::last`: the top of the heap's last entry. -/
def MergingSt.lastE [LinearOrder K] (s : MergingSt K V) : Option (K × V) :=
  match popMax s.heap with
  | some (c, _) => c.lastE
  | none => none

/-- `MergingIter::rewind` via `reset`: `take_children` (from the heap when it
is non-empty, else the `children` buffer), rewind each child, store them in
`children`, leaving the heap empty. -/
def MergingSt.doRewind [LinearOrder K] (s : MergingSt K V) : MergingSt K V :=
  let cs := if s.heap.isEmpty then s.children else s.heap
  ⟨[], cs.map SliceIterSt.doRewind⟩

def mergeCollect [LinearOrder K] : Nat → MergingSt K V → List (K × V)
  | 0, _ => []
  | fuel + 1, s =>
    let s2 := s.doNext
    match s2.lastE with
    | some e => e :: mergeCollect fuel s2
    | none => []

def mergeStepN [LinearOrder K] : Nat → MergingSt K V → MergingSt K V
  | 0, s => s
  | k + 1, s => mergeStepN k s.doNext

/-! ### Heap lemmas -/

theorem popMax_none_iff [LinearOrder K] (h : List (SliceIterSt (K × V))) :
    popMax h = none ↔ h = [] := by
  cases h with
  | nil => simp [popMax]
  | cons c cs =>
    simp only [popMax]
    rcases popMax cs with _ | ⟨m, rest⟩
    · simp
    · simp only []
      by_cases hc : childCmp c m = .lt <;> simp [hc]

theorem popMax_perm [LinearOrder K] :
    ∀ (h : List (SliceIterSt (K × V))) c rest, popMax h = some (c, rest) →
      h.Perm (c :: rest) := by
  intro h
  induction h with
  | nil => intro c rest hc; simp [popMax] at hc
  | cons a cs ih =>
    intro c rest hc
    simp only [popMax] at hc
    rcases hp : popMax cs with _ | ⟨m, mrest⟩
    · rw [hp] at hc
      simp only [Option.some.injEq, Prod.mk.injEq] at hc
      rw [popMax_none_iff] at hp
      subst hp
      obtain ⟨rfl, rfl⟩ := hc
      exact List.Perm.refl _
    · rw [hp] at hc
      dsimp only at hc
      by_cases hcm : childCmp a m = .lt
      · simp only [hcm, if_true, Option.some.injEq, Prod.mk.injEq] at hc
        obtain ⟨rfl, rfl⟩ := hc
        exact ((ih m mrest hp).cons a).trans (List.Perm.swap m a mrest)
      · simp only [hcm, if_false, Option.some.injEq, Prod.mk.injEq] at hc
        obtain ⟨rfl, rfl⟩ := hc
        exact (ih m mrest hp).cons a

theorem childCmp_gt_iff [LinearOrder K] (a b : SliceIterSt (K × V)) :
    childCmp b a = .gt ↔ childCmp a b = .lt := by
  rcases ha : a.lastE with _ | x <;> rcases hb : b.lastE with _ | y <;>
    simp only [childCmp, ha, hb] <;>
    first
      | simp
      | rw [compare_gt_iff_gt, compare_lt_iff_lt]

theorem childCmp_le_trans [LinearOrder K] {x y z : SliceIterSt (K × V)}
    (hxy : childCmp x y ≠ .gt) (hyz : childCmp y z ≠ .gt) : childCmp x z ≠ .gt := by
  rcases hx : x.lastE with _ | ex
  · rcases hz : z.lastE with _ | ez <;> simp [childCmp, hx, hz]
  · rcases hy : y.lastE with _ | ey
    · simp [childCmp, hx, hy] at hxy
    · rcases hz : z.lastE with _ | ez
      · simp [childCmp, hy, hz] at hyz
      · simp only [childCmp, hx, hy, hz] at hxy hyz ⊢
        intro hgt
        have hlt : ex.1 < ez.1 := compare_gt_iff_gt.mp hgt
        have hle : ez.1 ≤ ey.1 :=
          le_of_not_lt (fun hl => hyz (compare_gt_iff_gt.mpr hl))
        exact hxy (compare_gt_iff_gt.mpr (lt_of_lt_of_le hlt hle))

theorem popMax_max [LinearOrder K] :
    ∀ (h : List (SliceIterSt (K × V))) c rest, popMax h = some (c, rest) →
      ∀ d ∈ rest, childCmp d c ≠ .gt := by
  intro h
  induction h with
  | nil => intro c rest hc; simp [popMax] at hc
  | cons a cs ih =>
    intro c rest hc
    simp only [popMax] at hc
    rcases hp : popMax cs with _ | ⟨m, mrest⟩
    · rw [hp] at hc
      simp only [Option.some.injEq, Prod.mk.injEq] at hc
      obtain ⟨rfl, rfl⟩ := hc
      intro d hd
      exact absurd hd (List.not_mem_nil d)
    · rw [hp] at hc
      dsimp only at hc
      by_cases hcm : childCmp a m = .lt
      · simp only [hcm, if_true, Option.some.injEq, Prod.mk.injEq] at hc
        obtain ⟨rfl, rfl⟩ := hc
        intro d hd
        rcases List.mem_cons.mp hd with rfl | hd2
        · simp [hcm]
        · exact ih _ _ hp d hd2
      · simp only [hcm, if_false, Option.some.injEq, Prod.mk.injEq] at hc
        obtain ⟨rfl, rfl⟩ := hc
        intro d hd
        rcases List.mem_cons.mp hd with rfl | hd2
        · exact fun hgt => hcm ((childCmp_gt_iff a d).mp hgt)
        · exact childCmp_le_trans (ih _ _ hp d hd2)
            (fun hgt => hcm ((childCmp_gt_iff _ _).mp hgt))

theorem popMax_top_some [LinearOrder K] {h : List (SliceIterSt (K × V))}
    {c : SliceIterSt (K × V)} {rest : List (SliceIterSt (K × V))}
    (hpop : popMax h = some (c, rest)) {x : K × V} (hx : c.lastE = some x) :
    ∀ d ∈ rest, ∀ y, d.lastE = some y → x.1 ≤ y.1 := by
  intro d hd y hy
  have hne := popMax_max h c rest hpop d hd
  simp only [childCmp, hy, hx] at hne
  exact le_of_not_lt (fun hl => hne (compare_gt_iff_gt.mpr hl))

theorem popMax_top_none [LinearOrder K] {h : List (SliceIterSt (K × V))}
    {c : SliceIterSt (K × V)} {rest : List (SliceIterSt (K × V))}
    (hpop : popMax h = some (c, rest)) (hx : c.lastE = none) :
    ∀ d ∈ rest, d.lastE = none := by
  intro d hd
  have hne := popMax_max h c rest hpop d hd
  rcases hy : d.lastE with _ | y
  · rfl
  · simp [childCmp, hy, hx] at hne

/-- The heap after one `next` in the heap phase: advance the popped top and
push it back. -/
def stepH [LinearOrder K] (h : List (SliceIterSt (K × V))) :
    List (SliceIterSt (K × V)) :=
  match popMax h with
  | some (c, rest) => c.doNext :: rest
  | none => []

/-- The emission view of the heap phase: each round pops the maximum, emits
its last entry, advances it and pushes it back. -/
def emitRun [LinearOrder K] : Nat → List (SliceIterSt (K × V)) → List (K × V)
  | 0, _ => []
  | fuel + 1, h =>
    match popMax h with
    | none => []
    | some (c, rest) =>
      match c.lastE with
      | none => []
      | some e => e :: emitRun fuel (c.doNext :: rest)

theorem mergeCollect_heap_eq [LinearOrder K] :
    ∀ (f : Nat) (h : List (SliceIterSt (K × V))),
      mergeCollect f ⟨h, []⟩ = emitRun f (stepH h) := by
  intro f
  induction f with
  | zero => intro h; rfl
  | succ f ih =>
    intro h
    rcases hp : popMax h with _ | ⟨c, rest⟩
    · rw [popMax_none_iff] at hp
      subst hp
      simp [mergeCollect, MergingSt.lastE, MergingSt.doNext, popMax, stepH, emitRun]
    · have hstep : stepH h = c.doNext :: rest := by rw [stepH, hp]
      simp only [mergeCollect]
      have hdo : (MergingSt.mk h []).doNext = ⟨c.doNext :: rest, []⟩ := by
        rw [MergingSt.doNext]
        simp [hp]
      rw [hdo, hstep]
      rw [emitRun]
      rcases hp2 : popMax (c.doNext :: rest) with _ | ⟨c2, rest2⟩
      · rw [popMax_none_iff] at hp2
        cases hp2
      · have hlast : (MergingSt.mk (c.doNext :: rest) []).lastE = c2.lastE := by
          rw [MergingSt.lastE, hp2]
        rw [hlast]
        dsimp only
        rcases hl : c2.lastE with _ | e <;> dsimp only
        have hstep2 : stepH (c.doNext :: rest) = c2.doNext :: rest2 := by
          rw [stepH, hp2]
        rw [← hstep2, ← ih (c.doNext :: rest)]

theorem mergeCollect_build_eq [LinearOrder K] (ls : List (List (K × V))) (f : Nat) :
    mergeCollect (f + 1) (MergingSt.build ls) =
      emitRun (f + 1) ((ls.map SliceIterSt.init).map SliceIterSt.doNext) := by
  rw [MergingSt.build]
  simp only [mergeCollect]
  have hdo : (MergingSt.mk [] (ls.map SliceIterSt.init)).doNext =
      ⟨(ls.map SliceIterSt.init).map SliceIterSt.doNext, []⟩ := by
    rw [MergingSt.doNext]
    simp [popMax]
  rw [hdo, emitRun]
  rcases hp2 : popMax ((ls.map SliceIterSt.init).map SliceIterSt.doNext)
    with _ | ⟨c2, rest2⟩
  · rw [popMax_none_iff] at hp2
    rw [hp2]
    simp [MergingSt.lastE, popMax]
  · have hlast : (MergingSt.mk ((ls.map SliceIterSt.init).map SliceIterSt.doNext)
        []).lastE = c2.lastE := by
      rw [MergingSt.lastE, hp2]
    rw [hlast]
    dsimp only
    rcases hl : c2.lastE with _ | e <;> dsimp only
    have hstep2 : stepH ((ls.map SliceIterSt.init).map SliceIterSt.doNext) =
        c2.doNext :: rest2 := by
      rw [stepH, hp2]
    rw [← hstep2, ← mergeCollect_heap_eq]

/-- The entries a child can still produce: its current last entry (not yet
overtaken) followed by the rest of its slice. -/
def loaded {E : Type} (c : SliceIterSt E) : List E := c.lastE.toList ++ c.iter

/-- The entries remaining in a primed heap. -/
def remH {E : Type} (h : List (SliceIterSt E)) : List E := (h.map loaded).flatten

/-- Invariant of a primed child: exhausted children carry nothing, and the
remaining entries are ascending. -/
def GoodChild [LinearOrder K] (c : SliceIterSt (K × V)) : Prop :=
  (c.lastE = none → c.iter = []) ∧ (loaded c).Pairwise (fun a b => a.1 ≤ b.1)

theorem loaded_doNext {E : Type} (c : SliceIterSt E) : loaded c.doNext = c.iter := by
  cases hi : c.iter with
  | nil => simp [loaded, SliceIterSt.doNext, hi]
  | cons x t => simp [loaded, SliceIterSt.doNext, hi]

theorem GoodChild_doNext [LinearOrder K] {c : SliceIterSt (K × V)}
    (hg : GoodChild c) : GoodChild c.doNext := by
  constructor
  · intro hnone
    have hit : c.iter = [] := by
      cases hi : c.iter with
      | nil => rfl
      | cons x t =>
        rw [SliceIterSt.doNext] at hnone
        simp [hi] at hnone
    simp [SliceIterSt.doNext, hit]
  · rw [loaded_doNext]
    exact hg.2.sublist (List.sublist_append_right _ _)

theorem remH_cons {E : Type} (c : SliceIterSt E) (rest : List (SliceIterSt E)) :
    remH (c :: rest) = loaded c ++ remH rest := by
  simp [remH]

theorem remH_perm [LinearOrder K] {h : List (SliceIterSt (K × V))}
    {c : SliceIterSt (K × V)} {rest : List (SliceIterSt (K × V))}
    (hp : popMax h = some (c, rest)) :
    (remH h).Perm (loaded c ++ remH rest) := by
  have hperm := ((popMax_perm h c rest hp).map loaded).flatten
  simpa [remH] using hperm

theorem emitRun_perm [LinearOrder K] :
    ∀ (f : Nat) (h : List (SliceIterSt (K × V))), (∀ c ∈ h, GoodChild c) →
      (remH h).length ≤ f → (emitRun f h).Perm (remH h) := by
  intro f
  induction f with
  | zero =>
    intro h hg hlen
    have hnil : remH h = [] := List.eq_nil_of_length_eq_zero (by omega)
    rw [hnil, emitRun]
  | succ f ih =>
    intro h hg hlen
    rcases hp : popMax h with _ | ⟨c, rest⟩
    · rw [popMax_none_iff] at hp
      subst hp
      simp [emitRun, remH, popMax]
    · have hcg : GoodChild c :=
        hg c ((popMax_perm h c rest hp).mem_iff.mpr (by simp))
      have hrperm := remH_perm hp
      rcases hl : c.lastE with _ | e
      · have hall : ∀ d ∈ rest, d.lastE = none := popMax_top_none hp hl
        have hcl : loaded c = [] := by simp [loaded, hl, hcg.1 hl]
        have hrest0 : remH rest = [] := by
          have : ∀ d ∈ rest, loaded d = [] := by
            intro d hd
            have hdg : GoodChild d :=
              hg d ((popMax_perm h c rest hp).mem_iff.mpr (by simp [hd]))
            simp [loaded, hall d hd, hdg.1 (hall d hd)]
          simp only [remH, List.flatten_eq_nil_iff]
          intro l hl2
          rcases List.mem_map.mp hl2 with ⟨d, hd, rfl⟩
          exact this d hd
        have hremnil : remH h = [] :=
          (hrperm.trans (by rw [hcl, hrest0]; exact List.Perm.refl _)).eq_nil
        rw [emitRun, hp]
        dsimp only
        rw [hl, hremnil]
      · rw [emitRun, hp]
        dsimp only
        rw [hl]
        have hg2 : ∀ d ∈ (c.doNext :: rest), GoodChild d := by
          intro d hd
          rcases List.mem_cons.mp hd with rfl | hd2
          · exact GoodChild_doNext hcg
          · exact hg d ((popMax_perm h c rest hp).mem_iff.mpr (by simp [hd2]))
        have hremstep : remH (c.doNext :: rest) = c.iter ++ remH rest := by
          rw [remH_cons, loaded_doNext]
        have hlc : loaded c = e :: c.iter := by simp [loaded, hl]
        have h1 := hrperm.length_eq
        rw [hlc] at h1
        simp only [List.length_append, List.length_cons] at h1
        have h2 : (remH (c.doNext :: rest)).length =
            c.iter.length + (remH rest).length := by
          rw [hremstep]
          simp
        have ihp := ih (c.doNext :: rest) hg2 (by omega)
        have hfin : (remH h).Perm (e :: remH (c.doNext :: rest)) := by
          rw [hremstep]
          have : loaded c ++ remH rest = e :: (c.iter ++ remH rest) := by
            rw [hlc]
            rfl
          rw [this] at hrperm
          exact hrperm
        exact (ihp.cons e).trans hfin.symm

theorem emitRun_subset [LinearOrder K] :
    ∀ (f : Nat) (h : List (SliceIterSt (K × V))), (∀ c ∈ h, GoodChild c) →
      ∀ x ∈ emitRun f h, x ∈ remH h := by
  intro f
  induction f with
  | zero => intro h hg x hx; simp [emitRun] at hx
  | succ f ih =>
    intro h hg x hx
    rcases hp : popMax h with _ | ⟨c, rest⟩
    · rw [emitRun, hp] at hx
      simp at hx
    · rw [emitRun, hp] at hx
      dsimp only at hx
      rcases hl : c.lastE with _ | e
      · rw [hl] at hx
        simp at hx
      · rw [hl] at hx
        have hcg : GoodChild c :=
          hg c ((popMax_perm h c rest hp).mem_iff.mpr (by simp))
        have hg2 : ∀ d ∈ (c.doNext :: rest), GoodChild d := by
          intro d hd
          rcases List.mem_cons.mp hd with rfl | hd2
          · exact GoodChild_doNext hcg
          · exact hg d ((popMax_perm h c rest hp).mem_iff.mpr (by simp [hd2]))
        have hrperm := remH_perm hp
        have hlc : loaded c = e :: c.iter := by simp [loaded, hl]
        rcases List.mem_cons.mp hx with rfl | hx2
        · apply hrperm.mem_iff.mpr
          rw [hlc]
          simp
        · have hxs := ih (c.doNext :: rest) hg2 x hx2
          rw [remH_cons, loaded_doNext] at hxs
          apply hrperm.mem_iff.mpr
          rw [hlc]
          simpa using Or.inr (by simpa using hxs)

theorem emitRun_sorted [LinearOrder K] :
    ∀ (f : Nat) (h : List (SliceIterSt (K × V))), (∀ c ∈ h, GoodChild c) →
      (emitRun f h).Pairwise (fun a b => a.1 ≤ b.1) := by
  intro f
  induction f with
  | zero => intro h hg; simp [emitRun]
  | succ f ih =>
    intro h hg
    rcases hp : popMax h with _ | ⟨c, rest⟩
    · rw [emitRun, hp]
      exact List.Pairwise.nil
    · rw [emitRun, hp]
      dsimp only
      rcases hl : c.lastE with _ | e
      · exact List.Pairwise.nil
      · have hcg : GoodChild c :=
          hg c ((popMax_perm h c rest hp).mem_iff.mpr (by simp))
        have hg2 : ∀ d ∈ (c.doNext :: rest), GoodChild d := by
          intro d hd
          rcases List.mem_cons.mp hd with rfl | hd2
          · exact GoodChild_doNext hcg
          · exact hg d ((popMax_perm h c rest hp).mem_iff.mpr (by simp [hd2]))
        refine List.Pairwise.cons ?_ (ih (c.doNext :: rest) hg2)
        intro x hx
        have hxrem := emitRun_subset f (c.doNext :: rest) hg2 x hx
        rw [remH_cons, loaded_doNext, List.mem_append] at hxrem
        have hlc : loaded c = e :: c.iter := by simp [loaded, hl]
        rcases hxrem with hx1 | hx2
        · have hpw := hcg.2
          rw [hlc] at hpw
          exact (List.pairwise_cons.mp hpw).1 x hx1
        · rw [remH, List.mem_flatten] at hx2
          rcases hx2 with ⟨l2, hl2, hxl2⟩
          rcases List.mem_map.mp hl2 with ⟨d, hd, rfl⟩
          have hdg : GoodChild d :=
            hg d ((popMax_perm h c rest hp).mem_iff.mpr (by simp [hd]))
          rcases hdl : d.lastE with _ | y
          · rw [loaded, hdl, hdg.1 hdl] at hxl2
            simp at hxl2
          · have hey : e.1 ≤ y.1 := popMax_top_some hp hl d hd y hdl
            rw [loaded, hdl] at hxl2
            rcases List.mem_cons.mp (by simpa using hxl2) with rfl | hxd
            · exact hey
            · have hpd := hdg.2
              rw [loaded, hdl] at hpd
              have hpd2 : (y :: d.iter).Pairwise (fun a b => a.1 ≤ b.1) := by
                simpa using hpd
              exact le_trans hey ((List.pairwise_cons.mp hpd2).1 x hxd)

theorem primed_loaded [LinearOrder K] (ls : List (List (K × V))) :
    (((ls.map SliceIterSt.init).map SliceIterSt.doNext).map loaded) = ls := by
  rw [List.map_map, List.map_map]
  have hpt : ∀ l ∈ ls, ((loaded ∘ SliceIterSt.doNext) ∘ SliceIterSt.init) l = l := by
    intro l hl
    show loaded (SliceIterSt.init l).doNext = l
    rw [loaded_doNext]
    rfl
  rw [List.map_congr_left hpt]
  exact List.map_id _

theorem primed_good [LinearOrder K] (ls : List (List (K × V)))
    (hs : ∀ l ∈ ls, l.Pairwise (fun a b => a.1 ≤ b.1)) :
    ∀ c ∈ (ls.map SliceIterSt.init).map SliceIterSt.doNext, GoodChild c := by
  intro c hc
  rcases List.mem_map.mp hc with ⟨c0, hc0, rfl⟩
  rcases List.mem_map.mp hc0 with ⟨l, hl, rfl⟩
  constructor
  · intro hnone
    have : l.head? = none := hnone
    have hln : l = [] := by
      cases l
      · rfl
      · simp [SliceIterSt.init, SliceIterSt.doNext] at this
    simp [SliceIterSt.init, SliceIterSt.doNext, hln]
  · rw [loaded_doNext]
    exact hs l hl

/-- Shared core for the merging-iterator claims: exhausting a freshly built
merge over sorted children yields a sorted permutation of their
concatenation. -/
theorem mergeCollect_build_spec [LinearOrder K] (ls : List (List (K × V)))
    (hs : ∀ l ∈ ls, l.Pairwise (fun a b => a.1 ≤ b.1)) (f : Nat)
    (hf : ls.flatten.length + 1 ≤ f) :
    (mergeCollect f (MergingSt.build ls)).Perm ls.flatten ∧
    (mergeCollect f (MergingSt.build ls)).Pairwise (fun a b => a.1 ≤ b.1) := by
  obtain ⟨g, rfl⟩ : ∃ g, f = g + 1 := ⟨f - 1, by omega⟩
  rw [mergeCollect_build_eq]
  have hrem : remH ((ls.map SliceIterSt.init).map SliceIterSt.doNext) = ls.flatten := by
    rw [remH, primed_loaded]
  have hgood := primed_good ls hs
  constructor
  · have := emitRun_perm (g + 1) _ hgood (by rw [hrem]; omega)
    rwa [hrem] at this
  · exact emitRun_sorted (g + 1) _ hgood

/-- C4: a `MergingIter` built over child iterators that each yield entries in
ascending key order and exhausted by repeated `next()` yields exactly the
entries of all children — a permutation of their concatenation — in globally
ascending key order. -/
theorem c4_merging_iter [LinearOrder K] (ls : List (List (K × V)))
    (hs : ∀ l ∈ ls, l.Pairwise (fun a b => a.1 ≤ b.1)) (f : Nat)
    (hf : ls.flatten.length + 1 ≤ f) :
    (mergeCollect f (MergingSt.build ls)).Perm ls.flatten ∧
    (mergeCollect f (MergingSt.build ls)).Pairwise (fun a b => a.1 ≤ b.1) :=
  mergeCollect_build_spec ls hs f hf

theorem c4_witness :
    (mergeCollect 9
        (MergingSt.build [[((1 : Nat), (0 : Nat)), (3, 0)], [(2, 0), (4, 0)],
          [(1, 0), (8, 0)], [(3, 0), (7, 0)]])).Perm
      ([[((1 : Nat), (0 : Nat)), (3, 0)], [(2, 0), (4, 0)],
        [(1, 0), (8, 0)], [(3, 0), (7, 0)]] : List (List (Nat × Nat))).flatten ∧
    (mergeCollect 9
        (MergingSt.build [[((1 : Nat), (0 : Nat)), (3, 0)], [(2, 0), (4, 0)],
          [(1, 0), (8, 0)], [(3, 0), (7, 0)]])).Pairwise
      (fun a b => a.1 ≤ b.1) :=
  c4_merging_iter _ (by decide) 9 (by decide)

theorem sorted_perm_nodup_eq [LinearOrder K] :
    ∀ (l1 l2 : List (K × V)), l1.Perm l2 →
      l1.Pairwise (fun a b => a.1 ≤ b.1) → l2.Pairwise (fun a b => a.1 ≤ b.1) →
      (l1.map Prod.fst).Nodup → l1 = l2 := by
  intro l1
  induction l1 with
  | nil =>
    intro l2 hp _ _ _
    exact (hp.symm.eq_nil).symm
  | cons a t ih =>
    intro l2 hp hs1 hs2 hnd
    cases l2 with
    | nil => cases hp.eq_nil
    | cons b s =>
      have hab : a = b := by
        have hainl2 : a ∈ b :: s := hp.mem_iff.mp (by simp)
        have hbinl1 : b ∈ a :: t := hp.symm.mem_iff.mp (by simp)
        rcases List.mem_cons.mp hainl2 with h1 | h1
        · exact h1
        rcases List.mem_cons.mp hbinl1 with h2 | h2
        · exact h2.symm
        have hle1 : a.1 ≤ b.1 := (List.pairwise_cons.mp hs1).1 b h2
        have hle2 : b.1 ≤ a.1 := (List.pairwise_cons.mp hs2).1 a h1
        exfalso
        have hmem : a.1 ∈ t.map Prod.fst :=
          List.mem_map.mpr ⟨b, h2, (le_antisymm hle1 hle2).symm⟩
        rw [List.map_cons] at hnd
        exact (List.nodup_cons.mp hnd).1 hmem
      subst hab
      have hpt : t.Perm s := hp.cons_inv
      rw [ih s hpt (List.pairwise_cons.mp hs1).2 (List.pairwise_cons.mp hs2).2
        (by rw [List.map_cons] at hnd; exact (List.nodup_cons.mp hnd).2)]

/-- The children reachable by `next` always carry the same backing slices,
and one of the two buffers is empty. -/
def MergeInv [LinearOrder K] (ls : List (List (K × V))) (s : MergingSt K V) : Prop :=
  ((s.heap ++ s.children).map SliceIterSt.data).Perm ls ∧
    (s.heap = [] ∨ s.children = [])

theorem mergeInv_build [LinearOrder K] (ls : List (List (K × V))) :
    MergeInv ls (MergingSt.build ls) := by
  constructor
  · rw [MergingSt.build]
    simp only [List.nil_append, List.map_map]
    have hpt : ∀ l ∈ ls, (SliceIterSt.data ∘ SliceIterSt.init) l = l := by
      intro l hl
      rfl
    rw [List.map_congr_left hpt]
    rw [show List.map (fun a => a) ls = ls from List.map_id _]
  · exact Or.inl rfl

theorem mergeInv_doNext [LinearOrder K] {ls : List (List (K × V))}
    {s : MergingSt K V} (hinv : MergeInv ls s) : MergeInv ls s.doNext := by
  rcases hp : popMax s.heap with _ | ⟨c, rest⟩
  · rw [popMax_none_iff] at hp
    have hdo : s.doNext = ⟨s.children.map SliceIterSt.doNext, []⟩ := by
      rw [MergingSt.doNext, hp]
      rfl
    constructor
    · rw [hdo]
      simp only [List.append_nil, List.map_map]
      have hpt : ∀ d ∈ s.children, (SliceIterSt.data ∘ SliceIterSt.doNext) d =
          SliceIterSt.data d := by
        intro d hd
        rfl
      rw [List.map_congr_left hpt]
      have := hinv.1
      rwa [hp, List.nil_append] at this
    · rw [hdo]
      exact Or.inr rfl
  · have hch : s.children = [] := by
      rcases hinv.2 with h1 | h1
      · rw [h1] at hp
        simp [popMax] at hp
      · exact h1
    have hdo : s.doNext = ⟨c.doNext :: rest, s.children⟩ := by
      rw [MergingSt.doNext, hp]
    constructor
    · rw [hdo]
      simp only
      rw [hch, List.append_nil]
      have hperm : ((c.doNext :: rest).map SliceIterSt.data).Perm
          (s.heap.map SliceIterSt.data) := by
        have h1 : (c.doNext :: rest).map SliceIterSt.data =
            (c :: rest).map SliceIterSt.data := by
          simp only [List.map_cons]
          rfl
        rw [h1]
        exact ((popMax_perm _ _ _ hp).map SliceIterSt.data).symm
      have := hinv.1
      rw [hch, List.append_nil] at this
      exact hperm.trans this
    · rw [hdo]
      exact Or.inr hch

theorem mergeInv_stepN [LinearOrder K] {ls : List (List (K × V))} :
    ∀ (k : Nat) (s : MergingSt K V), MergeInv ls s → MergeInv ls (mergeStepN k s) := by
  intro k
  induction k with
  | zero => intro s hinv; exact hinv
  | succ k ih => intro s hinv; exact ih s.doNext (mergeInv_doNext hinv)

theorem doRewind_build [LinearOrder K] {ls : List (List (K × V))}
    {s : MergingSt K V} (hinv : MergeInv ls s) :
    ∃ ds, s.doRewind = MergingSt.build ds ∧ ds.Perm ls := by
  refine ⟨(if s.heap.isEmpty then s.children else s.heap).map SliceIterSt.data, ?_, ?_⟩
  · rw [MergingSt.doRewind, MergingSt.build]
    simp only [List.map_map]
    rfl
  · by_cases hh : s.heap.isEmpty
    · have hheap : s.heap = [] := by
        cases hs : s.heap
        · rfl
        · rw [hs] at hh; simp [List.isEmpty] at hh
      simp only [hh, if_true]
      have := hinv.1
      rwa [hheap, List.nil_append] at this
    · have hch : s.children = [] := by
        rcases hinv.2 with h1 | h1
        · rw [h1] at hh; simp at hh
        · exact h1
      simp only [hh, if_false]
      have := hinv.1
      rwa [hch, List.append_nil] at this

theorem optStepN_fix {E : Type} (e : E) :
    ∀ k, optStepN k (⟨none, some e⟩ : OptionIterSt E) = ⟨none, some e⟩ := by
  intro k
  induction k with
  | zero => rfl
  | succ k ih => exact ih

theorem optStepN_rewind {E : Type} (e0 : Option E) :
    ∀ k, (optStepN k (OptionIterSt.init e0)).doRewind = OptionIterSt.init e0 := by
  intro k
  cases k with
  | zero => cases e0 <;> rfl
  | succ k =>
    cases e0 with
    | none =>
      have hfix : ∀ j, optStepN j (OptionIterSt.init (none : Option E)) =
          OptionIterSt.init none := by
        intro j
        induction j with
        | zero => rfl
        | succ j ih => exact ih
      rw [hfix]
      rfl
    | some e =>
      show (optStepN k ((OptionIterSt.init (some e)).doNext).1).doRewind = _
      rw [show ((OptionIterSt.init (some e)).doNext).1 =
        (⟨none, some e⟩ : OptionIterSt E) from rfl]
      rw [optStepN_fix]
      rfl

/-- C9 (amended): rewinding at any point and replaying yields exactly the
initial traversal for `SliceIter`, `OptionIter` and `DataPageIter`; for
`MergingIter`, rewind empties the heap (it is rebuilt on the following
`next()`), and the replay yields the same sequence provided the children's
keys are pairwise distinct (in general the replay is a permutation in the
same ascending key order, but equal keys may trade places because the heap
returns its children in an unspecified internal order). -/
theorem c9_rewind_replay {E K V : Type} [LinearOrder K] :
    (∀ (s : SliceIterSt E) (f : Nat),
      sliceCollect f s.doRewind = sliceCollect f (SliceIterSt.init s.data)) ∧
    (∀ (e0 : Option E) (k f : Nat),
      optCollect f ((optStepN k (OptionIterSt.init e0)).doRewind) =
        optCollect f (OptionIterSt.init e0)) ∧
    (∀ (ck : Codec K) (cv : Codec V) (it : DataPageIterSt K V) (f : Nat),
      dpCollect ck cv f it.doRewind = dpCollect ck cv f (DataPageIterSt.init it.page)) ∧
    (∀ s : MergingSt K V, (MergingSt.doRewind s).heap = []) ∧
    (∀ (ls : List (List (K × V))) (k f : Nat),
      (∀ l ∈ ls, l.Pairwise (fun a b => a.1 ≤ b.1)) →
      (ls.flatten.map Prod.fst).Nodup →
      ls.flatten.length + 1 ≤ f →
      mergeCollect f ((mergeStepN k (MergingSt.build ls)).doRewind) =
        mergeCollect f (MergingSt.build ls)) := by
  refine ⟨fun s f => rfl, fun e0 k f => by rw [optStepN_rewind], fun ck cv it f => rfl,
    fun s => rfl, ?_⟩
  intro ls k f hs hnd hf
  have hinv := mergeInv_stepN k (MergingSt.build ls) (mergeInv_build ls)
  obtain ⟨ds, hds, hdsperm⟩ := doRewind_build hinv
  rw [hds]
  have hds_sorted : ∀ l ∈ ds, l.Pairwise (fun a b => a.1 ≤ b.1) :=
    fun l hl => hs l (hdsperm.mem_iff.mp hl)
  have hflat : ds.flatten.Perm ls.flatten := hdsperm.flatten
  have hspec1 := mergeCollect_build_spec ds hds_sorted f
    (by rw [hflat.length_eq]; omega)
  have hspec2 := mergeCollect_build_spec ls hs f hf
  apply sorted_perm_nodup_eq
  · exact (hspec1.1.trans hflat).trans hspec2.1.symm
  · exact hspec1.2
  · exact hspec2.2
  · have hperm1 : ((mergeCollect f (MergingSt.build ds)).map Prod.fst).Perm
        ((ls.flatten).map Prod.fst) := (hspec1.1.trans hflat).map Prod.fst
    exact hperm1.nodup_iff.mpr hnd

/-- C9 counterexample: with three one-entry children carrying the same key 1
but different values, exhausting the merging iterator, rewinding and
replaying yields the tied entries in a different order than the first
traversal, so the replay is not exactly the same sequence. -/
theorem c9_counterexample :
    mergeCollect 4 ((mergeStepN 4 (MergingSt.build
        [[((1 : Nat), (1 : Nat))], [(1, 2)], [(1, 3)]])).doRewind) ≠
      mergeCollect 4 (MergingSt.build [[((1 : Nat), (1 : Nat))], [(1, 2)], [(1, 3)]]) := by
  decide

theorem c9_witness :
    sliceCollect 3 ((SliceIterSt.init [((1 : Nat), (2 : Nat))]).doRewind) =
      sliceCollect 3 (SliceIterSt.init
        (SliceIterSt.init [((1 : Nat), (2 : Nat))]).data) ∧
    mergeCollect 6 ((mergeStepN 2 (MergingSt.build
        [[((1 : Nat), (0 : Nat))], [(2, 0)]])).doRewind) =
      mergeCollect 6 (MergingSt.build [[((1 : Nat), (0 : Nat))], [(2, 0)]]) :=
  ⟨(@c9_rewind_replay (Nat × Nat) Nat Nat _).1 _ 3,
    (@c9_rewind_replay (Nat × Nat) Nat Nat _).2.2.2.2
      [[((1 : Nat), (0 : Nat))], [(2, 0)]] 2 6 (by decide) (by decide) (by decide)⟩

/-! ## The tree engine state machine (`btree.rs`, `pagecache.rs`)

Raw pointers become `Nat` addresses into an explicit heap of page headers
(address 0 is the null pointer / chain terminator and is never allocated);
the mapping table is an association list from page id to the slot's address.
`PageCache::dealloc` is recorded in `freed` (headers stay readable in the
model, mirroring that freed memory is not scrubbed). -/

/-- A mapping-slot address: the top bit of the `u64` distinguishes in-memory
from on-disk addresses (`impl From<u64> for PageAddr`). -/
inductive PageAddrM where
  | Mem (a : Nat)
  | Disk (a : Nat)
deriving DecidableEq, Repr

/-- `From<u64> for PageAddr`: `addr & (1 << 63) == 0` selects `Mem(addr)`,
otherwise `Disk(addr & !(1 << 63))`. -/
def pageAddrOfU64 (x : Nat) : PageAddrM :=
  if x.testBit 63 then .Disk (x % 2 ^ 63) else .Mem x

/-- `From<PageAddr> for u64`. -/
def u64OfPageAddr : PageAddrM → Nat
  | .Mem a => a
  | .Disk a => a + 2 ^ 63

/-- The 20-byte page header (`base.rs`): 48-bit version, 8-bit chain length,
tag (is-index bit), 64-bit next address.  The content is irrelevant to the
header claims. -/
structure PageHdr where
  ver : Nat
  len : Nat
  isIndex : Bool
  next : Nat
deriving DecidableEq, Repr

/-- `PagePtr::set_default`: the header is zeroed by the page builder. -/
def freshHdr : PageHdr := ⟨0, 0, false, 0⟩

structure TreeState where
  table : List (Nat × Nat)
  heap : List (Nat × PageHdr)
  nextAddr : Nat
  freed : List Nat
deriving DecidableEq, Repr

def heapGet (s : TreeState) (a : Nat) : Option PageHdr :=
  (s.heap.find? (fun p => p.1 == a)).map Prod.snd

def slotOf (s : TreeState) (pid : Nat) : Option Nat :=
  (s.table.find? (fun p => p.1 == pid)).map Prod.snd

def setSlot (t : List (Nat × Nat)) (pid a : Nat) : List (Nat × Nat) :=
  t.map (fun p => if p.1 == pid then (pid, a) else p)

def setHdrAt (s : TreeState) (a : Nat) (h : PageHdr) : TreeState :=
  { s with heap := s.heap.map (fun p => if p.1 == a then (a, h) else p) }

/-- `PageAlloc::alloc` plus the builder's `set_default`-then-stamp: a fresh
address carrying the given header. -/
def allocPage (s : TreeState) (h : PageHdr) : TreeState × Nat :=
  ({ s with heap := (s.nextAddr, h) :: s.heap, nextAddr := s.nextAddr + 1 }, s.nextAddr)

/-- `PageCache::dealloc`: the address is returned to the allocator. -/
def deallocPage (s : TreeState) (a : Nat) : TreeState :=
  { s with freed := s.freed ++ [a] }

/-- `BTree::page_view`: `PagePtr::new` returns `None` exactly on the null
address; a live pointer is viewed together with its header.  The disk arm
consults the page store, unimplemented in the source (`page_info` of the
store facade; never reached here). -/
def pageView (s : TreeState) : PageAddrM → Option (Nat × PageHdr)
  | .Mem a => if a = 0 then none else (heapGet s a).map (fun h => (a, h))
  | .Disk _ => none

inductive TreeError where
  | alloc
  | again
  | unimplementedSwapIn
deriving DecidableEq, Repr

/-- `BTree::load_page_with_addr`: on a memory address, `Ok(PagePtr::new(a))`
(`Ok(None)` at the terminator); the disk arm is `todo!()` in the source,
modelled as an error no reachable execution produces. -/
def loadPageWithAddr (_s : TreeState) : PageAddrM → Except TreeError (Option Nat)
  | .Mem a => .ok (if a = 0 then none else some a)
  | .Disk _ => .error .unimplementedSwapIn

/-- The deferred closure of `BTree::dealloc_page_chain`: walk the chain via
`next` links, deallocating memory pages, stopping at the terminator (a null
pointer) or a disk address.  Returns the deallocated addresses in order. -/
def deallocChainGo (s : TreeState) : Nat → Nat → List Nat
  | 0, _ => []
  | fuel + 1, addr =>
    match pageAddrOfU64 addr with
    | .Mem p =>
      if p = 0 then []
      else
        match heapGet s p with
        | some h => p :: deallocChainGo s fuel h.next
        | none => []
    | .Disk _ => []

def deallocPageChain (s : TreeState) (addr : Nat) : TreeState :=
  { s with freed := s.freed ++ deallocChainGo s (addr + 1) addr }

/-- `BTree::try_consolidate_node`: build a fresh base page from the chain
(`set_default`, so chain length 0 and next 0), copy the node view's version
and is-index flag, CAS the slot from the old head to the new base; on failure
deallocate the fresh page and return `Again`, on success schedule the old
chain for reclamation. -/
def tryConsolidate (s : TreeState) (pid viewAddr : Nat) :
    TreeState × Except TreeError Unit :=
  let hv := (heapGet s viewAddr).getD freshHdr
  let built := allocPage s { freshHdr with ver := hv.ver, isIndex := hv.isIndex }
  let s1 := built.1
  let newAddr := built.2
  match slotOf s1 pid with
  | some cur =>
    if cur = viewAddr then
      let s2 := { s1 with table := setSlot s1.table pid newAddr }
      (deallocPageChain s2 viewAddr, .ok ())
    else
      (deallocPage s1 newAddr, .error .again)
  | none => (deallocPage s1 newAddr, .error .again)

/-- Stamping the delta before the CAS (`delta.set_ver(node.view.ver())`,
`set_len(node.view.len() + 1)` — a `u8`, hence modulo 256 —
`set_next(node.view.as_addr())`). -/
def stampDelta (s : TreeState) (delta viewAddr : Nat) : TreeState :=
  match heapGet s viewAddr, heapGet s delta with
  | some hv, some hd =>
    setHdrAt s delta ⟨hv.ver, (hv.len + 1) % 256, hd.isIndex, viewAddr⟩
  | _, _ => s

/-- `BTree::try_update`'s publication loop (`opts` is
`Options::data_delta_length`): stamp the delta, CAS the slot; on success
attempt consolidation when the chain is long enough, discarding its result;
on failure re-read the observed head and continue when the version is
unchanged, otherwise return `Again`. -/
def tryUpdateGo (opts : Nat) :
    Nat → TreeState → Nat → Nat → Nat → TreeState × Except TreeError Unit
  | 0, s, _, _, _ => (s, .error .again)
  | fuel + 1, s, pid, viewAddr, delta =>
    let s1 := stampDelta s delta viewAddr
    match slotOf s1 pid with
    | some cur =>
      if cur = viewAddr then
        let s2 := { s1 with table := setSlot s1.table pid delta }
        let lenD := ((heapGet s2 delta).map PageHdr.len).getD 0
        if opts ≤ lenD then
          ((tryConsolidate s2 pid delta).1, .ok ())
        else
          (s2, .ok ())
      else
        match pageView s1 (pageAddrOfU64 cur) with
        | some (_, hv) =>
          if hv.ver = ((heapGet s1 viewAddr).map PageHdr.ver).getD 0 then
            tryUpdateGo opts fuel s1 pid cur delta
          else
            (s1, .error .again)
        | none => (s1, .error .again)
    | none => (s1, .error .again)

/-- `BTree::update`: build the one-entry delta once, then retry `try_update`
from a fresh descent on `Again`, reusing the same delta page; deallocate the
delta only when a non-`Again` error aborts the operation.  `intf` injects the
interfering writes of other threads between attempts. -/
def updateGo (opts : Nat) :
    Nat → List (TreeState → TreeState) → TreeState → Nat → Nat →
      TreeState × Except TreeError Unit
  | 0, _, s, _, _ => (s, .error .again)
  | fuel + 1, intf, s, pid, delta =>
    let s0 := (intf.headD id) s
    let viewAddr := (slotOf s0 pid).getD 0
    match tryUpdateGo opts (fuel + 1) s0 pid viewAddr delta with
    | (s1, .ok _) => (s1, .ok ())
    | (s1, .error .again) => updateGo opts fuel intf.tail s1 pid delta
    | (s1, .error e) => (deallocPage s1 delta, .error e)

/-- `BTree::update` for pid `pid` as one atomic step of the state machine:
allocate the delta (`set_default` header) and publish it. -/
def applyUpdate (opts : Nat) (s : TreeState) (pid : Nat) : TreeState :=
  let built := allocPage s freshHdr
  match slotOf built.1 pid with
  | some viewAddr => (tryUpdateGo opts 2 built.1 pid viewAddr built.2).1
  | none => built.1

/-- A successful consolidation of pid `pid` from a fresh view as one atomic
step of the state machine. -/
def applyConsolidate (s : TreeState) (pid : Nat) : TreeState :=
  match slotOf s pid with
  | some viewAddr => (tryConsolidate s pid viewAddr).1
  | none => s

/-- `BTree::init`: a leaf with an empty data page and a one-entry root index
page; `ROOT_ID = 0`. -/
def initState : TreeState :=
  { table := [(0, 2), (1, 1)]
    heap := [(2, { freshHdr with isIndex := true }), (1, freshHdr)]
    nextAddr := 3
    freed := [] }

/-- The states reachable by writes and consolidations. -/
inductive Reach (opts : Nat) : TreeState → Prop where
  | init : Reach opts initState
  | update {s : TreeState} {pid a : Nat} : Reach opts s → slotOf s pid = some a →
      Reach opts (applyUpdate opts s pid)
  | consolidate {s : TreeState} {pid a : Nat} : Reach opts s → slotOf s pid = some a →
      Reach opts (applyConsolidate s pid)

/-- The number of pages reachable from `a` through `next` links (0 at the
terminator). -/
def chainCountF (s : TreeState) : Nat → Nat → Nat
  | 0, _ => 0
  | fuel + 1, a =>
    if a = 0 then 0
    else
      match heapGet s a with
      | some h => 1 + chainCountF s fuel h.next
      | none => 0

def chainCount (s : TreeState) (a : Nat) : Nat := chainCountF s a a

/-! ### Association-list and chain-count lemmas -/

theorem assoc_find_update_other {β : Type} (l : List (Nat × β)) (a : Nat) (h : β)
    {b : Nat} (hb : b ≠ a) :
    ((l.map (fun p => if p.1 == a then (a, h) else p)).find? (fun p => p.1 == b)) =
      l.find? (fun p => p.1 == b) := by
  induction l with
  | nil => rfl
  | cons p t ih =>
    by_cases hpa : p.1 = a
    · simpa [List.find?_cons, hpa, Ne.symm hb] using ih
    · cases hpb : (p.1 == b) with
      | false => simpa [List.find?_cons, hpa, hpb] using ih
      | true => simp [List.find?_cons, hpa, hpb]

theorem assoc_find_update_self {β : Type} (l : List (Nat × β)) (a : Nat) (h : β)
    {v : Nat × β} (hmem : l.find? (fun p => p.1 == a) = some v) :
    ((l.map (fun p => if p.1 == a then (a, h) else p)).find? (fun p => p.1 == a)) =
      some (a, h) := by
  induction l with
  | nil => simp [List.find?] at hmem
  | cons p t ih =>
    by_cases hpa : p.1 = a
    · simp [List.find?_cons, hpa]
    · have h1 : (p.1 == a) = false := by simp [hpa]
      simp only [List.find?_cons, h1] at hmem
      simpa [List.find?_cons, hpa, h1] using ih hmem

theorem heapGet_table (s : TreeState) (t : List (Nat × Nat)) (a : Nat) :
    heapGet { s with table := t } a = heapGet s a := rfl

theorem heapGet_freed (s : TreeState) (f : List Nat) (a : Nat) :
    heapGet { s with freed := f } a = heapGet s a := rfl

theorem slotOf_heap (s : TreeState) (hp : List (Nat × PageHdr)) (n : Nat) (pid : Nat) :
    slotOf { s with heap := hp, nextAddr := n } pid = slotOf s pid := rfl

theorem heapGet_allocPage_self (s : TreeState) (h : PageHdr) :
    heapGet (allocPage s h).1 s.nextAddr = some h := by
  simp [allocPage, heapGet, List.find?_cons]

theorem heapGet_allocPage_other (s : TreeState) (h : PageHdr) {b : Nat}
    (hb : b ≠ s.nextAddr) :
    heapGet (allocPage s h).1 b = heapGet s b := by
  have hne : (s.nextAddr == b) = false := by simp [Ne.symm hb]
  simp [allocPage, heapGet, List.find?_cons, hne]

theorem heapGet_setHdrAt_other (s : TreeState) (a : Nat) (h : PageHdr) {b : Nat}
    (hb : b ≠ a) :
    heapGet (setHdrAt s a h) b = heapGet s b := by
  simp only [setHdrAt, heapGet]
  rw [assoc_find_update_other s.heap a h hb]

theorem heapGet_setHdrAt_self (s : TreeState) (a : Nat) (h : PageHdr)
    {h0 : PageHdr} (hmem : heapGet s a = some h0) :
    heapGet (setHdrAt s a h) a = some h := by
  simp only [heapGet] at hmem
  rcases hv : s.heap.find? (fun p => p.1 == a) with _ | v
  · rw [hv] at hmem
    cases hmem
  · simp only [setHdrAt, heapGet]
    rw [assoc_find_update_self s.heap a h hv]
    rfl

theorem slotOf_setSlot_self (s : TreeState) (pid a : Nat) {v : Nat}
    (hmem : slotOf s pid = some v) :
    slotOf { s with table := setSlot s.table pid a } pid = some a := by
  simp only [slotOf] at hmem
  rcases hv : s.table.find? (fun p => p.1 == pid) with _ | w
  · rw [hv] at hmem
    cases hmem
  · simp only [slotOf, setSlot]
    rw [assoc_find_update_self s.table pid a hv]
    rfl

theorem slotOf_setSlot_other (s : TreeState) (pid a : Nat) {q : Nat} (hq : q ≠ pid) :
    slotOf { s with table := setSlot s.table pid a } q = slotOf s q := by
  simp only [slotOf, setSlot]
  rw [assoc_find_update_other s.table pid a hq]

theorem chainCountF_zero_addr (s : TreeState) (f : Nat) : chainCountF s f 0 = 0 := by
  cases f <;> rfl

theorem chainCountF_agree (s1 s2 : TreeState)
    (hnext : ∀ b h, heapGet s1 b = some h → h.next < b) :
    ∀ (fuel a : Nat), (∀ b, b ≤ a → heapGet s2 b = heapGet s1 b) →
      chainCountF s2 fuel a = chainCountF s1 fuel a := by
  intro fuel
  induction fuel with
  | zero => intro a hagree; rfl
  | succ fuel ih =>
    intro a hagree
    rw [chainCountF, chainCountF]
    by_cases ha : a = 0
    · simp [ha]
    · simp only [ha, if_false]
      rw [hagree a (le_refl a)]
      rcases hg : heapGet s1 a with _ | h
      · rfl
      · have hlt : h.next < a := hnext a h hg
        dsimp only
        rw [ih h.next (fun b hb => hagree b (by omega))]

theorem chainCountF_fuel (s : TreeState)
    (hnext : ∀ b h, heapGet s b = some h → h.next < b) :
    ∀ (f1 f2 a : Nat), a ≤ f1 → a ≤ f2 → chainCountF s f1 a = chainCountF s f2 a := by
  intro f1
  induction f1 with
  | zero =>
    intro f2 a h1 h2
    have : a = 0 := by omega
    subst this
    rw [chainCountF_zero_addr, chainCountF_zero_addr]
  | succ f1 ih =>
    intro f2 a h1 h2
    by_cases ha : a = 0
    · subst ha
      rw [chainCountF_zero_addr, chainCountF_zero_addr]
    · obtain ⟨g2, rfl⟩ : ∃ g2, f2 = g2 + 1 := ⟨f2 - 1, by omega⟩
      rw [chainCountF, chainCountF]
      simp only [ha, if_false]
      rcases hg : heapGet s a with _ | h
      · rfl
      · have hlt : h.next < a := hnext a h hg
        dsimp only
        rw [ih f1 h.next (by omega) (by omega), ih g2 h.next (by omega) (by omega)]

theorem chainCount_unfold (s : TreeState)
    (hnext : ∀ b h, heapGet s b = some h → h.next < b)
    {a : Nat} {h : PageHdr} (ha : a ≠ 0) (hg : heapGet s a = some h) :
    chainCount s a = 1 + chainCount s h.next := by
  have hlt : h.next < a := hnext a h hg
  obtain ⟨g, rfl⟩ : ∃ g, a = g + 1 := ⟨a - 1, by omega⟩
  rw [chainCount, chainCountF]
  simp only [ha, if_false, hg]
  rw [chainCount, chainCountF_fuel s hnext g h.next h.next (by omega) (le_refl _)]

theorem chainCount_agree (s1 s2 : TreeState)
    (hnext : ∀ b h, heapGet s1 b = some h → h.next < b)
    {a : Nat} (hagree : ∀ b, b ≤ a → heapGet s2 b = heapGet s1 b) :
    chainCount s2 a = chainCount s1 a := by
  rw [chainCount, chainCount]
  exact chainCountF_agree s1 s2 hnext a a hagree

theorem chainCount_pos (s : TreeState) {a : Nat} {h : PageHdr}
    (ha : a ≠ 0) (hg : heapGet s a = some h) : 1 ≤ chainCount s a := by
  obtain ⟨g, rfl⟩ : ∃ g, a = g + 1 := ⟨a - 1, by omega⟩
  rw [chainCount, chainCountF]
  simp [ha, hg]

/-! ### The chain-length invariant -/

/-- The state invariant: addresses are non-null and below the allocation
cursor, `next` links strictly decrease (pages only ever point at older
pages), every published slot address is live, and every published head's
chain-length field is the number of pages reachable from it minus one,
reduced modulo 256 (the field is a `u8`). -/
def INV (s : TreeState) : Prop :=
  1 ≤ s.nextAddr ∧
  (∀ a h, heapGet s a = some h → h.next < a ∧ 1 ≤ a ∧ a < s.nextAddr) ∧
  (∀ pid a, slotOf s pid = some a → ∃ h, heapGet s a = some h) ∧
  (∀ pid a h, slotOf s pid = some a → heapGet s a = some h →
    h.len = (chainCount s a - 1) % 256)

theorem heapGet_init (a : Nat) :
    heapGet initState a =
      if a = 2 then some { freshHdr with isIndex := true }
      else if a = 1 then some freshHdr else none := by
  by_cases h2 : a = 2
  · simp [heapGet, initState, List.find?_cons, h2]
  · by_cases h1 : a = 1
    · simp [heapGet, initState, List.find?_cons, h2, h1]
    · simp [heapGet, initState, List.find?_cons, h2, h1, Ne.symm h2, Ne.symm h1]

theorem slotOf_init (pid : Nat) :
    slotOf initState pid =
      if pid = 0 then some 2 else if pid = 1 then some 1 else none := by
  by_cases h0 : pid = 0
  · simp [slotOf, initState, List.find?_cons, h0]
  · by_cases h1 : pid = 1
    · simp [slotOf, initState, List.find?_cons, h0, h1]
    · simp [slotOf, initState, List.find?_cons, h0, h1, Ne.symm h0, Ne.symm h1]

theorem INV_init : INV initState := by
  refine ⟨by decide, ?_, ?_, ?_⟩
  · intro a h hget
    rw [heapGet_init] at hget
    by_cases h2 : a = 2
    · simp only [h2, if_true] at hget
      cases hget
      subst h2
      refine ⟨by decide, by decide, by decide⟩
    · by_cases h1 : a = 1
      · simp only [h2, if_false, h1, if_true] at hget
        cases hget
        subst h1
        refine ⟨by decide, by decide, by decide⟩
      · simp [h2, h1] at hget
  · intro pid a hslot
    rw [slotOf_init] at hslot
    by_cases h0 : pid = 0
    · simp only [h0, if_true] at hslot
      cases hslot
      exact ⟨{ freshHdr with isIndex := true }, by rw [heapGet_init]; rfl⟩
    · by_cases h1 : pid = 1
      · simp only [h0, if_false, h1, if_true] at hslot
        cases hslot
        exact ⟨freshHdr, by rw [heapGet_init]; rfl⟩
      · simp [h0, h1] at hslot
  · intro pid a h hslot hget
    rw [slotOf_init] at hslot
    by_cases h0 : pid = 0
    · simp only [h0, if_true] at hslot
      cases hslot
      rw [heapGet_init] at hget
      simp only [if_true] at hget
      cases hget
      decide
    · by_cases h1 : pid = 1
      · simp only [h0, if_false, h1, if_true] at hslot
        cases hslot
        rw [heapGet_init] at hget
        simp only [if_false, if_true] at hget
        cases hget
        decide
      · simp [h0, h1] at hslot

/-- The state `try_update` publishes on a clean CAS: allocate the delta,
stamp it against the observed head, swing the slot to it. -/
def publishState (s : TreeState) (pid va : Nat) : TreeState :=
  let s2 := stampDelta (allocPage s freshHdr).1 s.nextAddr va
  { s2 with table := setSlot s2.table pid s.nextAddr }

theorem slotOf_setHdrAt (s : TreeState) (a : Nat) (h : PageHdr) (pid : Nat) :
    slotOf (setHdrAt s a h) pid = slotOf s pid := rfl

theorem stampDelta_publish (s : TreeState) (va : Nat) {hv0 : PageHdr}
    (hgv : heapGet s va = some hv0) (hne : va ≠ s.nextAddr) :
    stampDelta (allocPage s freshHdr).1 s.nextAddr va =
      setHdrAt (allocPage s freshHdr).1 s.nextAddr
        ⟨hv0.ver, (hv0.len + 1) % 256, false, va⟩ := by
  have h1 : heapGet (allocPage s freshHdr).1 va = some hv0 := by
    rw [heapGet_allocPage_other s freshHdr hne]
    exact hgv
  have h2 : heapGet (allocPage s freshHdr).1 s.nextAddr = some freshHdr :=
    heapGet_allocPage_self s freshHdr
  simp only [stampDelta]
  rw [h1, h2]
  rfl

theorem stampDelta_table (s : TreeState) (d v : Nat) :
    (stampDelta s d v).table = s.table := by
  simp only [stampDelta]
  rcases heapGet s v with _ | hv
  · rfl
  · rcases heapGet s d with _ | hd
    · rfl
    · rfl

theorem slotOf_stampDelta (s : TreeState) (d v q : Nat) :
    slotOf (stampDelta s d v) q = slotOf s q := by
  simp only [slotOf, stampDelta_table]

theorem stampDelta_nextAddr (s : TreeState) (d v : Nat) :
    (stampDelta s d v).nextAddr = s.nextAddr := by
  simp only [stampDelta]
  rcases heapGet s v with _ | hv
  · rfl
  · rcases heapGet s d with _ | hd
    · rfl
    · rfl

theorem publishState_heapGet (s : TreeState) (pid va : Nat) {hv0 : PageHdr}
    (hgv : heapGet s va = some hv0) (hne : va ≠ s.nextAddr) (b : Nat) :
    heapGet (publishState s pid va) b =
      if b = s.nextAddr then some ⟨hv0.ver, (hv0.len + 1) % 256, false, va⟩
      else heapGet s b := by
  have hg : heapGet (publishState s pid va) b =
      heapGet (stampDelta (allocPage s freshHdr).1 s.nextAddr va) b := rfl
  rw [hg, stampDelta_publish s va hgv hne]
  by_cases hb : b = s.nextAddr
  · subst hb
    rw [if_pos rfl]
    exact heapGet_setHdrAt_self _ _ _ (heapGet_allocPage_self s freshHdr)
  · rw [if_neg hb, heapGet_setHdrAt_other _ _ _ hb,
      heapGet_allocPage_other s freshHdr hb]

theorem publishState_slotOf (s : TreeState) (pid va : Nat)
    {w : Nat} (hva : slotOf s pid = some w) (q : Nat) :
    slotOf (publishState s pid va) q =
      if q = pid then some s.nextAddr else slotOf s q := by
  by_cases hq : q = pid
  · subst hq
    rw [if_pos rfl]
    have hva2 : slotOf (stampDelta (allocPage s freshHdr).1 s.nextAddr va) q =
        some w := by
      rw [slotOf_stampDelta]
      exact hva
    exact slotOf_setSlot_self _ q s.nextAddr hva2
  · rw [if_neg hq]
    have h3 := slotOf_setSlot_other
      (stampDelta (allocPage s freshHdr).1 s.nextAddr va) pid s.nextAddr hq
    exact h3.trans (slotOf_stampDelta _ _ _ q)

theorem publishState_nextAddr (s : TreeState) (pid va : Nat) :
    (publishState s pid va).nextAddr = s.nextAddr + 1 := by
  have h1 : (publishState s pid va).nextAddr =
      (stampDelta (allocPage s freshHdr).1 s.nextAddr va).nextAddr := rfl
  rw [h1, stampDelta_nextAddr]
  rfl

theorem INV_publishState (s : TreeState) (pid va : Nat)
    (hinv : INV s) (hva : slotOf s pid = some va) :
    INV (publishState s pid va) := by
  obtain ⟨hN, hA, hB, hL⟩ := hinv
  obtain ⟨hv0, hgv⟩ := hB pid va hva
  obtain ⟨hnx, hva1, hvaN⟩ := hA va hv0 hgv
  have hne : va ≠ s.nextAddr := by omega
  have hget := publishState_heapGet s pid va hgv hne
  have hslot := publishState_slotOf s pid va hva
  have hnA := publishState_nextAddr s pid va
  have hnextS : ∀ b h, heapGet s b = some h → h.next < b := by
    intro b h hb
    exact (hA b h hb).1
  have hnextR : ∀ b h, heapGet (publishState s pid va) b = some h → h.next < b := by
    intro b h hb
    rw [hget b] at hb
    by_cases hbN : b = s.nextAddr
    · rw [if_pos hbN] at hb
      cases hb
      subst hbN
      simpa using hvaN
    · rw [if_neg hbN] at hb
      exact (hA b h hb).1
  have hagreeBelow : ∀ a, a < s.nextAddr →
      chainCount (publishState s pid va) a = chainCount s a := by
    intro a haN
    refine chainCount_agree s _ hnextS ?_
    intro b hb
    rw [hget b, if_neg (by omega)]
  have hheadCount : chainCount (publishState s pid va) s.nextAddr =
      1 + chainCount s va := by
    rw [chainCount_unfold _ hnextR (by omega) (by rw [hget, if_pos rfl])]
    exact congrArg (1 + ·) (hagreeBelow va hvaN)
  refine ⟨by rw [hnA]; omega, ?_, ?_, ?_⟩
  · intro a h hb
    rw [hget a] at hb
    by_cases hbN : a = s.nextAddr
    · rw [if_pos hbN] at hb
      cases hb
      subst hbN
      exact ⟨by simpa using hvaN, by omega, by rw [hnA]; omega⟩
    · rw [if_neg hbN] at hb
      obtain ⟨x1, x2, x3⟩ := hA a h hb
      exact ⟨x1, x2, by rw [hnA]; omega⟩
  · intro q a hq
    rw [hslot q] at hq
    by_cases hqp : q = pid
    · rw [if_pos hqp] at hq
      cases hq
      exact ⟨_, by rw [hget, if_pos rfl]⟩
    · rw [if_neg hqp] at hq
      obtain ⟨h, hgh⟩ := hB q a hq
      obtain ⟨_, _, haN⟩ := hA a h hgh
      exact ⟨h, by rw [hget, if_neg (by omega)]; exact hgh⟩
  · intro q a h hq hgh
    rw [hslot q] at hq
    by_cases hqp : q = pid
    · rw [if_pos hqp] at hq
      cases hq
      rw [hget, if_pos rfl] at hgh
      cases hgh
      have hlen := hL pid va hv0 hva hgv
      have hpos : 1 ≤ chainCount s va := chainCount_pos s (by omega) hgv
      rw [hheadCount]
      simp only at hlen ⊢
      omega
    · rw [if_neg hqp] at hq
      obtain ⟨h0, hgh0⟩ := hB q a hq
      obtain ⟨_, _, haN⟩ := hA a h0 hgh0
      rw [hget, if_neg (by omega)] at hgh
      rw [hagreeBelow a haN]
      exact hL q a h hq hgh

theorem INV_allocPage (s : TreeState) (h : PageHdr) (hh : h.next = 0)
    (hinv : INV s) : INV (allocPage s h).1 := by
  obtain ⟨hN, hA, hB, hL⟩ := hinv
  have hnA : (allocPage s h).1.nextAddr = s.nextAddr + 1 := rfl
  have hslot : ∀ q, slotOf (allocPage s h).1 q = slotOf s q := fun _ => rfl
  have hnextS : ∀ b g, heapGet s b = some g → g.next < b := by
    intro b g hb
    exact (hA b g hb).1
  refine ⟨by rw [hnA]; omega, ?_, ?_, ?_⟩
  · intro a g hb
    by_cases hbN : a = s.nextAddr
    · subst hbN
      rw [heapGet_allocPage_self] at hb
      cases hb
      exact ⟨by omega, by omega, by rw [hnA]; omega⟩
    · rw [heapGet_allocPage_other s h hbN] at hb
      obtain ⟨x1, x2, x3⟩ := hA a g hb
      exact ⟨x1, x2, by rw [hnA]; omega⟩
  · intro q a hq
    rw [hslot q] at hq
    obtain ⟨g, hg⟩ := hB q a hq
    obtain ⟨_, _, haN⟩ := hA a g hg
    exact ⟨g, by rw [heapGet_allocPage_other s h (by omega)]; exact hg⟩
  · intro q a g hq hg
    rw [hslot q] at hq
    obtain ⟨g0, hg0⟩ := hB q a hq
    obtain ⟨_, _, haN⟩ := hA a g0 hg0
    rw [heapGet_allocPage_other s h (by omega)] at hg
    have hcc : chainCount (allocPage s h).1 a = chainCount s a := by
      refine chainCount_agree s _ hnextS ?_
      intro b hb
      exact heapGet_allocPage_other s h (by omega)
    rw [hcc]
    exact hL q a g hq hg

theorem slotOf_allocPage (s : TreeState) (h : PageHdr) (q : Nat) :
    slotOf (allocPage s h).1 q = slotOf s q := rfl

theorem applyConsolidate_none (s : TreeState) (pid : Nat)
    (h : slotOf s pid = none) : applyConsolidate s pid = s := by
  unfold applyConsolidate
  rw [h]

theorem applyConsolidate_eq (s : TreeState) (pid va : Nat)
    (hva : slotOf s pid = some va) :
    applyConsolidate s pid =
      deallocPageChain
        { (allocPage s ⟨((heapGet s va).getD freshHdr).ver, 0,
            ((heapGet s va).getD freshHdr).isIndex, 0⟩).1 with
          table := setSlot s.table pid s.nextAddr } va := by
  unfold applyConsolidate
  rw [hva]
  dsimp only
  unfold tryConsolidate
  dsimp only
  rw [slotOf_allocPage, hva]
  dsimp only
  rw [if_pos rfl]
  rfl

theorem applyConsolidate_heapGet (s : TreeState) (pid va : Nat)
    (hva : slotOf s pid = some va) (b : Nat) :
    heapGet (applyConsolidate s pid) b =
      if b = s.nextAddr then
        some ⟨((heapGet s va).getD freshHdr).ver, 0,
          ((heapGet s va).getD freshHdr).isIndex, 0⟩
      else heapGet s b := by
  rw [applyConsolidate_eq s pid va hva]
  have hred : heapGet
      (deallocPageChain
        { (allocPage s ⟨((heapGet s va).getD freshHdr).ver, 0,
            ((heapGet s va).getD freshHdr).isIndex, 0⟩).1 with
          table := setSlot s.table pid s.nextAddr } va) b =
      heapGet (allocPage s ⟨((heapGet s va).getD freshHdr).ver, 0,
        ((heapGet s va).getD freshHdr).isIndex, 0⟩).1 b := rfl
  rw [hred]
  by_cases hb : b = s.nextAddr
  · subst hb
    rw [if_pos rfl, heapGet_allocPage_self]
  · rw [if_neg hb, heapGet_allocPage_other s _ hb]

theorem applyConsolidate_slotOf (s : TreeState) (pid va : Nat)
    (hva : slotOf s pid = some va) (q : Nat) :
    slotOf (applyConsolidate s pid) q =
      if q = pid then some s.nextAddr else slotOf s q := by
  rw [applyConsolidate_eq s pid va hva]
  have hred : slotOf
      (deallocPageChain
        { (allocPage s ⟨((heapGet s va).getD freshHdr).ver, 0,
            ((heapGet s va).getD freshHdr).isIndex, 0⟩).1 with
          table := setSlot s.table pid s.nextAddr } va) q =
      slotOf { s with table := setSlot s.table pid s.nextAddr } q := rfl
  rw [hred]
  by_cases hq : q = pid
  · subst hq
    rw [if_pos rfl]
    exact slotOf_setSlot_self s q s.nextAddr hva
  · rw [if_neg hq]
    exact slotOf_setSlot_other s pid s.nextAddr hq

theorem applyConsolidate_nextAddr (s : TreeState) (pid va : Nat)
    (hva : slotOf s pid = some va) :
    (applyConsolidate s pid).nextAddr = s.nextAddr + 1 := by
  rw [applyConsolidate_eq s pid va hva]
  rfl

theorem INV_applyConsolidate (s : TreeState) (pid : Nat) (hinv : INV s) :
    INV (applyConsolidate s pid) := by
  rcases hva : slotOf s pid with _ | va
  · rw [applyConsolidate_none s pid hva]
    exact hinv
  obtain ⟨hN, hA, hB, hL⟩ := hinv
  obtain ⟨hv0, hgv⟩ := hB pid va hva
  obtain ⟨hnx, hva1, hvaN⟩ := hA va hv0 hgv
  have hget := applyConsolidate_heapGet s pid va hva
  have hslot := applyConsolidate_slotOf s pid va hva
  have hnA := applyConsolidate_nextAddr s pid va hva
  have hnextS : ∀ b h, heapGet s b = some h → h.next < b := by
    intro b h hb
    exact (hA b h hb).1
  have hnextR : ∀ b h, heapGet (applyConsolidate s pid) b = some h → h.next < b := by
    intro b h hb
    rw [hget b] at hb
    by_cases hbN : b = s.nextAddr
    · rw [if_pos hbN] at hb
      cases hb
      subst hbN
      simpa using hN
    · rw [if_neg hbN] at hb
      exact (hA b h hb).1
  have hagreeBelow : ∀ a, a < s.nextAddr →
      chainCount (applyConsolidate s pid) a = chainCount s a := by
    intro a haN
    refine chainCount_agree s _ hnextS ?_
    intro b hb
    rw [hget b, if_neg (by omega)]
  have hzero : chainCount (applyConsolidate s pid) 0 = 0 := rfl
  have hheadCount : chainCount (applyConsolidate s pid) s.nextAddr = 1 := by
    rw [chainCount_unfold _ hnextR (by omega) (by rw [hget, if_pos rfl]), hzero]
  refine ⟨by rw [hnA]; omega, ?_, ?_, ?_⟩
  · intro a h hb
    rw [hget a] at hb
    by_cases hbN : a = s.nextAddr
    · rw [if_pos hbN] at hb
      cases hb
      subst hbN
      exact ⟨by simpa using hN, by omega, by rw [hnA]; omega⟩
    · rw [if_neg hbN] at hb
      obtain ⟨x1, x2, x3⟩ := hA a h hb
      exact ⟨x1, x2, by rw [hnA]; omega⟩
  · intro q a hq
    rw [hslot q] at hq
    by_cases hqp : q = pid
    · rw [if_pos hqp] at hq
      cases hq
      exact ⟨_, by rw [hget, if_pos rfl]⟩
    · rw [if_neg hqp] at hq
      obtain ⟨h, hgh⟩ := hB q a hq
      obtain ⟨_, _, haN⟩ := hA a h hgh
      exact ⟨h, by rw [hget, if_neg (by omega)]; exact hgh⟩
  · intro q a h hq hgh
    rw [hslot q] at hq
    by_cases hqp : q = pid
    · rw [if_pos hqp] at hq
      cases hq
      rw [hget, if_pos rfl] at hgh
      cases hgh
      rw [hheadCount]
    · rw [if_neg hqp] at hq
      obtain ⟨h0, hgh0⟩ := hB q a hq
      obtain ⟨_, _, haN⟩ := hA a h0 hgh0
      rw [hget, if_neg (by omega)] at hgh
      rw [hagreeBelow a haN]
      exact hL q a h hq hgh

theorem applyUpdate_eq (opts : Nat) (s : TreeState) (pid va : Nat) {hv0 : PageHdr}
    (hva : slotOf s pid = some va) (hgv : heapGet s va = some hv0)
    (hne : va ≠ s.nextAddr) :
    applyUpdate opts s pid =
      if opts ≤ (hv0.len + 1) % 256 then
        applyConsolidate (publishState s pid va) pid
      else publishState s pid va := by
  have hcur : slotOf (stampDelta (allocPage s freshHdr).1 s.nextAddr va) pid =
      some va := by
    rw [slotOf_stampDelta]
    exact hva
  have hlen : ((heapGet
      { stampDelta (allocPage s freshHdr).1 s.nextAddr va with
        table := setSlot (stampDelta (allocPage s freshHdr).1 s.nextAddr va).table
          pid s.nextAddr } s.nextAddr).map PageHdr.len).getD 0 =
      (hv0.len + 1) % 256 := by
    have h1 : heapGet
        { stampDelta (allocPage s freshHdr).1 s.nextAddr va with
          table := setSlot (stampDelta (allocPage s freshHdr).1 s.nextAddr va).table
            pid s.nextAddr } s.nextAddr =
        heapGet (stampDelta (allocPage s freshHdr).1 s.nextAddr va) s.nextAddr := rfl
    rw [h1, stampDelta_publish s va hgv hne,
      heapGet_setHdrAt_self _ _ _ (heapGet_allocPage_self s freshHdr)]
    rfl
  unfold applyUpdate
  dsimp only
  rw [slotOf_allocPage, hva]
  dsimp only
  have h2 : (allocPage s freshHdr).2 = s.nextAddr := rfl
  rw [h2]
  show (tryUpdateGo opts (1 + 1) (allocPage s freshHdr).1 pid va s.nextAddr).1 = _
  rw [tryUpdateGo]
  dsimp only
  rw [hcur]
  dsimp only
  rw [if_pos rfl, hlen]
  by_cases hop : opts ≤ (hv0.len + 1) % 256
  · rw [if_pos hop, if_pos hop]
    have hs3 : slotOf (publishState s pid va) pid = some s.nextAddr := by
      rw [publishState_slotOf s pid va hva pid, if_pos rfl]
    conv_rhs => unfold applyConsolidate
    rw [hs3]
    rfl
  · rw [if_neg hop, if_neg hop]
    rfl

theorem INV_applyUpdate (opts : Nat) (s : TreeState) (pid : Nat) (hinv : INV s) :
    INV (applyUpdate opts s pid) := by
  rcases hva : slotOf s pid with _ | va
  · have he : applyUpdate opts s pid = (allocPage s freshHdr).1 := by
      unfold applyUpdate
      dsimp only
      rw [slotOf_allocPage, hva]
    rw [he]
    exact INV_allocPage s freshHdr rfl hinv
  · obtain ⟨hv0, hgv⟩ := hinv.2.2.1 pid va hva
    have hne : va ≠ s.nextAddr := by
      obtain ⟨_, _, h3⟩ := hinv.2.1 va hv0 hgv
      omega
    rw [applyUpdate_eq opts s pid va hva hgv hne]
    by_cases hop : opts ≤ (hv0.len + 1) % 256
    · rw [if_pos hop]
      exact INV_applyConsolidate _ pid (INV_publishState s pid va hinv hva)
    · rw [if_neg hop]
      exact INV_publishState s pid va hinv hva

theorem INV_reach (opts : Nat) {s : TreeState} (h : Reach opts s) : INV s := by
  induction h with
  | init => exact INV_init
  | update _ _ ih => exact INV_applyUpdate opts _ _ ih
  | consolidate _ _ ih => exact INV_applyConsolidate _ _ ih

theorem stampDelta_freed (s : TreeState) (d v : Nat) :
    (stampDelta s d v).freed = s.freed := by
  simp only [stampDelta]
  rcases heapGet s v with _ | hv
  · rfl
  · rcases heapGet s d with _ | hd
    · rfl
    · rfl

theorem applyConsolidate_headCount (s : TreeState) (pid va : Nat)
    (hva : slotOf s pid = some va) (hinv : INV s) :
    chainCount (applyConsolidate s pid) s.nextAddr = 1 := by
  obtain ⟨hN, hA, hB, hL⟩ := hinv
  have hget := applyConsolidate_heapGet s pid va hva
  have hnextR : ∀ b h, heapGet (applyConsolidate s pid) b = some h → h.next < b := by
    intro b h hb
    rw [hget b] at hb
    by_cases hbN : b = s.nextAddr
    · rw [if_pos hbN] at hb
      cases hb
      subst hbN
      simpa using hN
    · rw [if_neg hbN] at hb
      exact (hA b h hb).1
  rw [chainCount_unfold _ hnextR (by omega) (by rw [hget, if_pos rfl])]
  rfl

theorem tryConsolidate_heapGet_new (s : TreeState) (pid va : Nat) :
    heapGet (tryConsolidate s pid va).1 s.nextAddr =
      some ⟨((heapGet s va).getD freshHdr).ver, 0,
        ((heapGet s va).getD freshHdr).isIndex, 0⟩ := by
  unfold tryConsolidate
  dsimp only
  rw [slotOf_allocPage]
  rcases h : slotOf s pid with _ | cur
  · exact heapGet_allocPage_self s _
  · dsimp only
    by_cases hc : cur = va
    · rw [if_pos hc]
      exact heapGet_allocPage_self s _
    · rw [if_neg hc]
      exact heapGet_allocPage_self s _

/-- C2 (amended): in every state reachable by updates and consolidations, the
chain-length field of a published head equals the number of pages reachable
from it via `next` links minus one, reduced modulo 256 (the field is a `u8`
and `set_default` zeroes it, so a base-only page carries 0, not 1); and
immediately after a successful consolidation the new head is a fresh base
page with chain-length field 0 and exactly one reachable page. -/
theorem c2_chain_length (opts : Nat) (s : TreeState) (hs : Reach opts s)
    (pid a : Nat) (h : PageHdr) (hslot : slotOf s pid = some a)
    (hget : heapGet s a = some h) :
    h.len = (chainCount s a - 1) % 256 ∧
    slotOf (applyConsolidate s pid) pid = some s.nextAddr ∧
    heapGet (applyConsolidate s pid) s.nextAddr = some ⟨h.ver, 0, h.isIndex, 0⟩ ∧
    chainCount (applyConsolidate s pid) s.nextAddr = 1 := by
  have hinv := INV_reach opts hs
  refine ⟨hinv.2.2.2 pid a h hslot hget, ?_, ?_,
    applyConsolidate_headCount s pid a hslot hinv⟩
  · rw [applyConsolidate_slotOf s pid a hslot pid, if_pos rfl]
  · rw [applyConsolidate_heapGet s pid a hslot s.nextAddr, if_pos rfl, hget]
    rfl

/-- C2 witness: after one update on the root from the initial state the head
is the delta at address 3, its chain-length field is 1, and two pages are
reachable from it. -/
theorem c2_witness :
    slotOf (applyUpdate 5 initState 0) 0 = some 3 ∧
    chainCount (applyUpdate 5 initState 0) 3 = 2 ∧
    (⟨0, 1, false, 2⟩ : PageHdr).len =
      (chainCount (applyUpdate 5 initState 0) 3 - 1) % 256 :=
  ⟨by decide, by decide,
    (c2_chain_length 5 (applyUpdate 5 initState 0)
      (@Reach.update 5 initState 0 2 Reach.init (by decide)) 0 3
      ⟨0, 1, false, 2⟩ (by decide) (by decide)).1⟩

/-- C2 counterexample to the literal claim: consolidating the leaf of the
initial state yields a reachable state whose head is a base-only page with
chain-length field 0, while exactly one page is reachable from it — the
field is neither the reachable count nor 1 after consolidation. -/
theorem c2_counterexample :
    Reach 5 (applyConsolidate initState 1) ∧
    slotOf (applyConsolidate initState 1) 1 = some 3 ∧
    heapGet (applyConsolidate initState 1) 3 = some freshHdr ∧
    chainCount (applyConsolidate initState 1) 3 = 1 ∧
    freshHdr.len ≠ chainCount (applyConsolidate initState 1) 3 ∧
    freshHdr.len ≠ 1 :=
  ⟨@Reach.consolidate 5 initState 1 1 Reach.init (by decide),
    by decide, by decide, by decide, by decide, by decide⟩

/-- A state with a published head whose version differs from the stale view a
writer holds: slot 0 points at page 2 (version 7), the writer's delta sits at
address 3, and its observed head address 9 is dead. -/
def c3State : TreeState :=
  { table := [(0, 2)]
    heap := [(2, ⟨7, 0, false, 0⟩), (3, freshHdr)]
    nextAddr := 4
    freed := [] }

/-- C3 (amended): when `try_update`'s CAS fails, a re-read head of unchanged
version makes the loop retry with the new head address and the same delta,
without restarting the descent; a version change makes it return
`Error::Again` with the delta still unpublished and NOT deallocated (its
state keeps the freed list unchanged).  At the `update` level an `Again`
outcome retries `try_update` from a fresh descent reusing the same delta
page, and only a non-`Again` error deallocates the delta. -/
theorem c3_cas_fail_paths (opts fuel : Nat) (pid delta : Nat) :
    (∀ (s : TreeState) (viewAddr cur x : Nat) (hv : PageHdr),
      slotOf (stampDelta s delta viewAddr) pid = some cur → cur ≠ viewAddr →
      pageView (stampDelta s delta viewAddr) (pageAddrOfU64 cur) = some (x, hv) →
      hv.ver = ((heapGet (stampDelta s delta viewAddr) viewAddr).map
        PageHdr.ver).getD 0 →
      tryUpdateGo opts (fuel + 1) s pid viewAddr delta =
        tryUpdateGo opts fuel (stampDelta s delta viewAddr) pid cur delta) ∧
    (∀ (s : TreeState) (viewAddr cur x : Nat) (hv : PageHdr),
      slotOf (stampDelta s delta viewAddr) pid = some cur → cur ≠ viewAddr →
      pageView (stampDelta s delta viewAddr) (pageAddrOfU64 cur) = some (x, hv) →
      hv.ver ≠ ((heapGet (stampDelta s delta viewAddr) viewAddr).map
        PageHdr.ver).getD 0 →
      tryUpdateGo opts (fuel + 1) s pid viewAddr delta =
        (stampDelta s delta viewAddr, .error .again) ∧
      (stampDelta s delta viewAddr).freed = s.freed) ∧
    (∀ (intf : List (TreeState → TreeState)) (s s1 : TreeState),
      tryUpdateGo opts (fuel + 1) (intf.headD id s) pid
        ((slotOf (intf.headD id s) pid).getD 0) delta = (s1, .error .again) →
      updateGo opts (fuel + 1) intf s pid delta =
        updateGo opts fuel intf.tail s1 pid delta) ∧
    (∀ (intf : List (TreeState → TreeState)) (s s1 : TreeState) (e : TreeError),
      e ≠ TreeError.again →
      tryUpdateGo opts (fuel + 1) (intf.headD id s) pid
        ((slotOf (intf.headD id s) pid).getD 0) delta = (s1, .error e) →
      updateGo opts (fuel + 1) intf s pid delta =
        (deallocPage s1 delta, .error e)) := by
  refine ⟨?_, ?_, ?_, ?_⟩
  · intro s viewAddr cur x hv hcur hne hpv hver
    rw [tryUpdateGo]
    dsimp only
    rw [hcur]
    dsimp only
    rw [if_neg hne, hpv]
    dsimp only
    rw [if_pos hver]
  · intro s viewAddr cur x hv hcur hne hpv hver
    refine ⟨?_, stampDelta_freed s delta viewAddr⟩
    rw [tryUpdateGo]
    dsimp only
    rw [hcur]
    dsimp only
    rw [if_neg hne, hpv]
    dsimp only
    rw [if_neg hver]
  · intro intf s s1 h
    rw [updateGo]
    rw [h]
  · intro intf s s1 e he h
    rw [updateGo]
    rw [h]
    rcases e with _ | _ | _
    · rfl
    · exact absurd rfl he
    · rfl

/-- C3 witness: from `c3State` with stale view address 9 and delta 3, the
version check fails (7 against 0) and `try_update` returns `Again` with the
freed list untouched. -/
theorem c3_witness :
    tryUpdateGo 4 (0 + 1) c3State 0 9 3 =
      (stampDelta c3State 3 9, .error .again) ∧
    (stampDelta c3State 3 9).freed = c3State.freed :=
  (c3_cas_fail_paths 4 0 0 3).2.1 c3State 9 2 2 ⟨7, 0, false, 0⟩
    (by decide) (by decide) (by decide) (by decide)

/-- C3 counterexample to the literal claim: in the version-change case the
run returns `Error::Again` yet the unpublished delta page 3 is neither
deallocated (the freed list stays empty) nor removed from the heap. -/
theorem c3_counterexample :
    (tryUpdateGo 4 1 c3State 0 9 3).2 = .error .again ∧
    (tryUpdateGo 4 1 c3State 0 9 3).1.freed = [] ∧
    heapGet (tryUpdateGo 4 1 c3State 0 9 3).1 3 = some freshHdr := by
  refine ⟨rfl, by decide, by decide⟩

/-- C6: consolidation allocates its new base page copying the node view's
version and is-index flag (chain length 0, next null); when its CAS loses,
the fresh page is deallocated, the mapping-table slot and the rest of the
state are unchanged, and `Again` is reported; when it wins, the slot moves to
the new base and the old chain is freed.  The triggering `try_update` returns
`Ok` regardless: after its own successful CAS it discards the consolidation
result. -/
theorem c6_consolidation (s : TreeState) (pid va : Nat) :
    heapGet (tryConsolidate s pid va).1 s.nextAddr =
      some ⟨((heapGet s va).getD freshHdr).ver, 0,
        ((heapGet s va).getD freshHdr).isIndex, 0⟩ ∧
    (∀ cur, slotOf s pid = some cur → cur ≠ va →
      (tryConsolidate s pid va).2 = .error .again ∧
      (tryConsolidate s pid va).1.table = s.table ∧
      (tryConsolidate s pid va).1.freed = s.freed ++ [s.nextAddr] ∧
      slotOf (tryConsolidate s pid va).1 pid = some cur) ∧
    (slotOf s pid = some va →
      slotOf (tryConsolidate s pid va).1 pid = some s.nextAddr ∧
      (tryConsolidate s pid va).2 = .ok ()) ∧
    (∀ (opts fuel : Nat) (s' : TreeState) (pid' viewAddr delta : Nat),
      slotOf (stampDelta s' delta viewAddr) pid' = some viewAddr →
      (tryUpdateGo opts (fuel + 1) s' pid' viewAddr delta).2 = .ok ()) := by
  refine ⟨tryConsolidate_heapGet_new s pid va, ?_, ?_, ?_⟩
  · intro cur hcur hne
    unfold tryConsolidate
    dsimp only
    rw [slotOf_allocPage, hcur]
    dsimp only
    rw [if_neg hne]
    exact ⟨rfl, rfl, rfl, hcur⟩
  · intro hva
    unfold tryConsolidate
    dsimp only
    rw [slotOf_allocPage, hva]
    dsimp only
    rw [if_pos rfl]
    refine ⟨?_, rfl⟩
    have hva2 : slotOf (allocPage s ⟨((heapGet s va).getD freshHdr).ver, 0,
        ((heapGet s va).getD freshHdr).isIndex, 0⟩).1 pid = some va := hva
    exact slotOf_setSlot_self _ pid _ hva2
  · intro opts fuel s' pid' viewAddr delta hcur
    rw [tryUpdateGo]
    dsimp only
    rw [hcur]
    dsimp only
    rw [if_pos rfl]
    by_cases hop : opts ≤ ((heapGet
        { stampDelta s' delta viewAddr with
          table := setSlot (stampDelta s' delta viewAddr).table pid' delta }
        delta).map PageHdr.len).getD 0
    · rw [if_pos hop]
    · rw [if_neg hop]

/-- C6 witness: consolidating the leaf of the initial state against the dead
view address 5 makes the CAS fail — the slot still points at page 1, page 3
is deallocated, the result is `Again` — while the new base page carries the
view's (defaulted) version and flag. -/
theorem c6_witness :
    heapGet (tryConsolidate initState 1 5).1 3 = some ⟨0, 0, false, 0⟩ ∧
    (tryConsolidate initState 1 5).2 = .error .again ∧
    (tryConsolidate initState 1 5).1.table = initState.table ∧
    (tryConsolidate initState 1 5).1.freed = initState.freed ++ [3] ∧
    slotOf (tryConsolidate initState 1 5).1 1 = some 1 :=
  ⟨(c6_consolidation initState 1 5).1,
    (c6_consolidation initState 1 5).2.1 1 (by decide) (by decide)⟩

/-- C10: the chain-terminator address 0 decodes to `PageAddr::Mem(0)`;
`page_view` returns `None` on it, `load_page_with_addr` returns `Ok(None)`
so chain walks stop there, `dealloc_page_chain` stops without deallocating
anything when it reaches it, and the reachable count from it is 0. -/
theorem c10_null_terminator (s : TreeState) (f : Nat) :
    pageAddrOfU64 0 = PageAddrM.Mem 0 ∧
    pageView s (PageAddrM.Mem 0) = none ∧
    loadPageWithAddr s (PageAddrM.Mem 0) = .ok none ∧
    deallocChainGo s f 0 = [] ∧
    chainCount s 0 = 0 := by
  refine ⟨by decide, rfl, rfl, ?_, rfl⟩
  cases f with
  | zero => rfl
  | succ g => rfl

end Photon
